import Mathlib

/-!
Verification of the RRT* planner core from `src/RRT/src/RRT_star.py`
(`class RRTGraph`).

Modelling conventions (shallow embedding):
* Node coordinates are integers (`ℤ`): in the source every stored coordinate
  is produced by `int(...)` (`sample_envir`, the steering truncation) or taken
  from the integer start/goal pixels of the driver.
* Python floats (distances, costs, `float('inf')`) are modelled by `ℝ≥0∞`:
  every distance is a nonnegative square root and `float('inf')` is `⊤`;
  IEEE addition of nonnegative values with infinity agrees with `ℝ≥0∞`.
* Randomness is externalised: `expand` takes the sampled point as an argument
  (the source draws it from `random.uniform`); `bias` takes the goal argument
  exactly as the source does.
* `pygame.Rect.collidepoint` converts float arguments to C ints (truncation
  toward zero) and then tests `left ≤ x < left+w ∧ top ≤ y < top+h` (points on
  the right/bottom edge are outside).  We model the rational sample points of
  `crossObstacles` accordingly.
* `math.atan2 py px` is `Complex.arg ⟨px, py⟩`; `int(...)` on a float is
  truncation toward zero (`pyInt`).
* The display-related fields (`MapDimensions`, `Maph`, `Mapw`, `obsdim`,
  `obsNumber`) only feed the random generators (`sample_envir`, `makeobs`),
  which are externalised, so they are not part of the state; `makeobs` is
  modelled by installing an arbitrary obstacle list (see `Reachable`).
-/

open Classical

open scoped ENNReal

/-- Truncation toward zero of a real number, the semantics of Python `int(...)`
on a float. -/
noncomputable def pyInt (r : ℝ) : ℤ := if 0 ≤ r then ⌊r⌋ else ⌈r⌉

/-- Truncation toward zero of a rational, the conversion pygame applies to
float point coordinates before an integer rectangle test. -/
def ratTrunc (q : ℚ) : ℤ := if 0 ≤ q then ⌊q⌋ else ⌈q⌉

/-- `math.atan2 y x`, the angle of the vector `(x, y)` in `(-π, π]`. -/
noncomputable def atan2 (y x : ℝ) : ℝ := Complex.arg ⟨x, y⟩

/-- `ENNReal.ofReal (Real.sqrt a)` for an integer `a`: the form every distance
value of the planner takes (`a` is a sum of two squares). -/
noncomputable def edn (a : ℤ) : ℝ≥0∞ := ENNReal.ofReal (Real.sqrt a)

/-- An axis-aligned `pygame.Rect`: upper-left corner and size. -/
structure Rect where
  left : ℤ
  top : ℤ
  w : ℤ
  h : ℤ
  deriving DecidableEq, Repr

/-- `pygame.Rect.collidepoint`: the point is truncated to integers, then
tested against the half-open box. -/
def Rect.collidepoint (r : Rect) (px py : ℚ) : Bool :=
  let ix := ratTrunc px
  let iy := ratTrunc py
  decide (r.left ≤ ix) && decide (ix < r.left + r.w) &&
    decide (r.top ≤ iy) && decide (iy < r.top + r.h)

/-- The mutable state of `RRTGraph` (`__init__`), restricted to the fields the
planner reads or writes: parallel coordinate lists `x`, `y`, the `parent` and
`cost` lists, the obstacle list, the goal bookkeeping and the extracted path. -/
structure RRTGraph where
  start : ℤ × ℤ
  goal : ℤ × ℤ
  goalFlag : Bool
  x : List ℤ
  y : List ℤ
  parent : List ℕ
  cost : List ℝ≥0∞
  obstacles : List Rect
  goalstate : Option ℕ
  path : List ℕ

/-- `RRTGraph.__init__`: the tree holds only the start node, with parent `0`
and cost `0`; `goalFlag` is down and the obstacle list is empty. -/
def initGraph (s g : ℤ × ℤ) : RRTGraph :=
  { start := s
    goal := g
    goalFlag := false
    x := [s.1]
    y := [s.2]
    parent := [0]
    cost := [0]
    obstacles := []
    goalstate := none
    path := [] }

/-- `RRTGraph.add_node(n, x, y)`: appends to `x`, `y` and `cost` (the cost is
initialised to `float('inf')`); the index argument `n` is ignored by the
source and the `parent` list is not touched. -/
noncomputable def add_node (g : RRTGraph) (_n : ℕ) (px py : ℤ) : RRTGraph :=
  { g with x := g.x ++ [px], y := g.y ++ [py], cost := g.cost ++ [⊤] }

/-- `RRTGraph.remove_node(n)`: pops index `n` from `x` and `y` only; the
`cost` list keeps its entry. -/
def remove_node (g : RRTGraph) (n : ℕ) : RRTGraph :=
  { g with x := g.x.eraseIdx n, y := g.y.eraseIdx n }

/-- `RRTGraph.distance(n1, n2)`: `float('inf')` when either index is out of
bounds of the `x` list, otherwise the Euclidean distance of the two stored
positions. -/
noncomputable def distance (g : RRTGraph) (n1 n2 : ℕ) : ℝ≥0∞ :=
  if g.x.length ≤ n1 ∨ g.x.length ≤ n2 then ⊤
  else edn ((g.x.getD n1 0 - g.x.getD n2 0) ^ 2 + (g.y.getD n1 0 - g.y.getD n2 0) ^ 2)

/-- `RRTGraph.add_edge(parent, child)`: appends `parent` to the parent list
and writes `cost[child] = cost[parent] + distance(parent, child)`. -/
noncomputable def add_edge (g : RRTGraph) (p c : ℕ) : RRTGraph :=
  { g with parent := g.parent ++ [p]
           cost := g.cost.set c (g.cost.getD p ⊤ + distance g p c) }

/-- `RRTGraph.crossObstacles(x1, x2, y1, y2)`: for each obstacle, samples the
segment at the 201 parameters `u = i/200`, `i = 0..200` (endpoints included:
`u = 0` gives `(x2, y2)`, `u = 1` gives `(x1, y1)`) and reports a hit as soon
as one sampled point lies inside the rectangle. -/
def crossObstacles (obs : List Rect) (x1 x2 y1 y2 : ℤ) : Bool :=
  obs.any fun r =>
    (List.range 201).any fun i =>
      let u : ℚ := (i : ℚ) / 200
      r.collidepoint ((x1 : ℚ) * u + (x2 : ℚ) * (1 - u))
        ((y1 : ℚ) * u + (y2 : ℚ) * (1 - u))

/-- `RRTGraph.isFree()`: tests the last added node against the obstacle set;
on a hit the node is removed (`remove_node`) and `False` is returned. -/
def isFree (g : RRTGraph) : RRTGraph × Bool :=
  let n := g.x.length - 1
  let px := g.x.getD n 0
  let py := g.y.getD n 0
  if g.obstacles.any fun r => r.collidepoint (px : ℚ) (py : ℚ) then
    (remove_node g n, false)
  else (g, true)

/-- `RRTGraph.connect(n1, n2)`: if the segment between the two nodes crosses
an obstacle the node `n2` is removed and `False` returned, otherwise the edge
is added. -/
noncomputable def connect (g : RRTGraph) (n1 n2 : ℕ) : RRTGraph × Bool :=
  let x1 := g.x.getD n1 0
  let y1 := g.y.getD n1 0
  let x2 := g.x.getD n2 0
  let y2 := g.y.getD n2 0
  if crossObstacles g.obstacles x1 x2 y1 y2 then (remove_node g n2, false)
  else (add_edge g n1 n2, true)

/-- `RRTGraph.nearest(n)`: linear scan over the indices `0 ≤ i < n`, keeping
the first index realising the strictly smallest distance to node `n`; `dmin`
starts at `distance 0 n` with candidate `0`. -/
noncomputable def nearest (g : RRTGraph) (n : ℕ) : ℕ :=
  ((List.range n).foldl
    (fun acc i => if distance g i n < acc.1 then (distance g i n, i) else acc)
    (distance g 0 n, 0)).2

/-- One iteration of the `rewire` loop body for index `i` (the source's `for i
in range(len(self.x))` body): guarded re-parenting of `i` onto `new_node`. -/
noncomputable def rewireStep (s : RRTGraph) (new_node i : ℕ) : RRTGraph :=
  if i = new_node ∨ s.cost.length ≤ i ∨ s.cost.length ≤ new_node then s
  else
    let dist := distance s i new_node
    if dist < 35 then
      let new_cost := s.cost.getD new_node ⊤ + dist
      if new_cost < s.cost.getD i ⊤ then
        if ¬ crossObstacles s.obstacles (s.x.getD new_node 0) (s.x.getD i 0)
            (s.y.getD new_node 0) (s.y.getD i 0) then
          { s with parent := s.parent.set i new_node, cost := s.cost.set i new_cost }
        else s
      else s
    else s

/-- `RRTGraph.rewire(new_node)`: early return when `new_node` is out of
bounds, otherwise the loop body over `range(len(self.x))`. -/
noncomputable def rewire (g : RRTGraph) (new_node : ℕ) : RRTGraph :=
  if g.x.length ≤ new_node then g
  else (List.range g.x.length).foldl (fun s i => rewireStep s new_node i) g

/-- `RRTGraph.step(nnear, nrand, dmax=35)`: when the candidate is farther than
`dmax` from its nearest node it is replaced by the truncated point at distance
`dmax` along the bearing; if that point lands within `dmax` of the goal in
both axes the candidate is snapped onto the goal and the goal flag is armed
(before any edge validation). -/
noncomputable def step (g : RRTGraph) (nnear nrand : ℕ) (dmax : ℕ) : RRTGraph :=
  let d := distance g nnear nrand
  if (dmax : ℝ≥0∞) < d then
    let xnear := g.x.getD nnear 0
    let ynear := g.y.getD nnear 0
    let xrand := g.x.getD nrand 0
    let yrand := g.y.getD nrand 0
    let px := xrand - xnear
    let py := yrand - ynear
    let theta := atan2 (py : ℝ) (px : ℝ)
    let sx := pyInt ((xnear : ℝ) + (dmax : ℝ) * Real.cos theta)
    let sy := pyInt ((ynear : ℝ) + (dmax : ℝ) * Real.sin theta)
    let g1 := remove_node g nrand
    if |sx - g.goal.1| < dmax ∧ |sy - g.goal.2| < dmax then
      let g2 := add_node g1 nrand g.goal.1 g.goal.2
      { g2 with goalstate := some nrand, goalFlag := true }
    else add_node g1 nrand sx sy
  else g

/-- `RRTGraph.expand()` with the random sample externalised as `p`: tentative
append, point-free check (with rollback), nearest, steer, connect, rewire. -/
noncomputable def expand (g : RRTGraph) (p : ℤ × ℤ) : RRTGraph :=
  let n := g.x.length
  let g1 := add_node g n p.1 p.2
  let fr := isFree g1
  if fr.2 then
    let g2 := fr.1
    let xnearest := nearest g2 n
    let g3 := step g2 xnearest n 35
    let g4 := (connect g3 xnearest n).1
    rewire g4 n
  else fr.1

/-- `RRTGraph.bias(ngoal)`: like `expand` with the sample forced to `ngoal`,
but with no point-free check. -/
noncomputable def bias (g : RRTGraph) (ngoal : ℤ × ℤ) : RRTGraph :=
  let n := g.x.length
  let g1 := add_node g n ngoal.1 ngoal.2
  let nnear := nearest g1 n
  let g2 := step g1 nnear n 35
  let g3 := (connect g2 nnear n).1
  rewire g3 n

/-- The parent-pointer walk of `path_to_goal` (`while newpos != 0`), with
explicit fuel: the source loop would diverge on a cyclic parent relation. -/
def walkParents (parent : List ℕ) : ℕ → ℕ → List ℕ
  | 0, _ => []
  | fuel + 1, pos => if pos = 0 then [] else pos :: walkParents parent fuel (parent.getD pos 0)

/-- `RRTGraph.path_to_goal()`: when the goal flag is armed, the goal state
recorded and in bounds of the parent list, rebuilds `path` by walking parent
pointers from `goalstate` and returns `True`; otherwise returns `False`
leaving `path` untouched. -/
def path_to_goal (g : RRTGraph) : RRTGraph × Bool :=
  match g.goalstate with
  | none => (g, false)
  | some gs =>
    if g.goalFlag = true ∧ gs < g.parent.length then
      let p := gs :: walkParents g.parent (g.parent.length + 1) (g.parent.getD gs 0) ++ [0]
      ({ g with path := p }, true)
    else (g, false)

/-- `RRTGraph.getPathCord()`: maps the stored `path` indices to coordinates;
the fresh state has `path = []`, so the call returns `[]` (no error). -/
def getPathCord (g : RRTGraph) : List (ℤ × ℤ) :=
  g.path.map fun n => (g.x.getD n 0, g.y.getD n 0)

/-! ### Arithmetic helpers for distance values -/

theorem edn_sq (k : ℕ) : edn ((k : ℤ) ^ 2) = k := by
  unfold edn
  push_cast
  rw [Real.sqrt_sq (by positivity)]
  exact ENNReal.ofReal_natCast k

theorem edn_lt_edn {a b : ℤ} (ha : 0 ≤ a) : edn a < edn b ↔ a < b := by
  unfold edn
  rw [ENNReal.ofReal_lt_ofReal_iff_of_nonneg (Real.sqrt_nonneg _),
    Real.sqrt_lt_sqrt_iff (by exact_mod_cast ha)]
  exact_mod_cast Iff.rfl

theorem edn_lt_natCast {a : ℤ} {n : ℕ} (ha : 0 ≤ a) : edn a < (n : ℝ≥0∞) ↔ a < (n : ℤ) ^ 2 := by
  rw [show ((n : ℝ≥0∞)) = edn ((n : ℤ) ^ 2) from (edn_sq n).symm, edn_lt_edn ha]

theorem natCast_lt_edn {a : ℤ} {n : ℕ} : (n : ℝ≥0∞) < edn a ↔ (n : ℤ) ^ 2 < a := by
  rw [show ((n : ℝ≥0∞)) = edn ((n : ℤ) ^ 2) from (edn_sq n).symm, edn_lt_edn (by positivity)]

theorem edn_eval {a : ℤ} {k : ℕ} (h : a = (k : ℤ) ^ 2) : edn a = k := by rw [h, edn_sq]

theorem pyInt_intCast (k : ℤ) : pyInt (k : ℝ) = k := by
  unfold pyInt
  split <;> simp

theorem pyInt_eval {r : ℝ} {k : ℤ} (h : r = (k : ℝ)) : pyInt r = k := by
  rw [h, pyInt_intCast]

/-- Cosine and sine of `atan2 py px` for a vector of known length `r > 0`. -/
theorem atan2_cos_sin {px py r : ℝ} (hr : 0 < r) (h : px ^ 2 + py ^ 2 = r ^ 2) :
    Real.cos (atan2 py px) = px / r ∧ Real.sin (atan2 py px) = py / r := by
  have habs : Complex.abs ⟨px, py⟩ = r := by
    rw [Complex.abs_apply, Complex.normSq_mk]
    rw [show px * px + py * py = r ^ 2 by rw [← h]; ring]
    exact Real.sqrt_sq hr.le
  have hz : (⟨px, py⟩ : ℂ) ≠ 0 := by
    intro hz
    rw [hz] at habs
    simp at habs
    exact absurd habs (ne_of_gt hr).symm
  constructor
  · rw [atan2, Complex.cos_arg hz, habs]
  · rw [atan2, Complex.sin_arg, habs]

/-! ### Effect of the operations on list lengths and untouched fields -/

theorem add_node_lengths (g : RRTGraph) (n : ℕ) (px py : ℤ) :
    (add_node g n px py).x.length = g.x.length + 1 ∧
    (add_node g n px py).y.length = g.y.length + 1 ∧
    (add_node g n px py).cost.length = g.cost.length + 1 ∧
    (add_node g n px py).parent = g.parent := by
  simp [add_node]

theorem remove_node_lengths (g : RRTGraph) (n : ℕ) :
    (remove_node g n).cost = g.cost ∧ (remove_node g n).parent = g.parent ∧
    (remove_node g n).x.length = g.x.length - (if n < g.x.length then 1 else 0) ∧
    (remove_node g n).y.length = g.y.length - (if n < g.y.length then 1 else 0) := by
  refine ⟨rfl, rfl, ?_, ?_⟩ <;>
    · simp only [remove_node, List.length_eraseIdx]
      split <;> simp

theorem add_edge_lengths (g : RRTGraph) (p c : ℕ) :
    (add_edge g p c).x = g.x ∧ (add_edge g p c).y = g.y ∧
    (add_edge g p c).parent.length = g.parent.length + 1 ∧
    (add_edge g p c).cost.length = g.cost.length := by
  simp [add_edge]

/-- `rewireStep` either leaves the state unchanged or re-parents exactly the
index `i` onto `new_node` with the candidate cost. -/
theorem rewireStep_shape (s : RRTGraph) (n i : ℕ) :
    rewireStep s n i = s ∨ rewireStep s n i =
      { s with parent := s.parent.set i n,
               cost := s.cost.set i (s.cost.getD n ⊤ + distance s i n) } := by
  unfold rewireStep
  dsimp only
  split
  · exact Or.inl rfl
  split
  case isFalse => exact Or.inl rfl
  split
  case isFalse => exact Or.inl rfl
  split
  case isTrue => exact Or.inr rfl
  case isFalse => exact Or.inl rfl

theorem rewireStep_static (s : RRTGraph) (n i : ℕ) :
    (rewireStep s n i).x = s.x ∧ (rewireStep s n i).y = s.y ∧
    (rewireStep s n i).obstacles = s.obstacles ∧
    (rewireStep s n i).goalFlag = s.goalFlag ∧
    (rewireStep s n i).goalstate = s.goalstate ∧
    (rewireStep s n i).cost.length = s.cost.length ∧
    (rewireStep s n i).parent.length = s.parent.length := by
  rcases rewireStep_shape s n i with h | h <;> rw [h] <;> simp

/-! ### Characterisation of `rewire` -/

theorem getD_set_same {α : Type} (l : List α) (i : ℕ) (v d : α) (h : i < l.length) :
    (l.set i v).getD i d = v := by
  simp [List.getD, List.getElem?_set_self, h]

theorem getD_set_other {α : Type} (l : List α) {i j : ℕ} (v d : α) (h : i ≠ j) :
    (l.set i v).getD j d = l.getD j d := by
  simp [List.getD, List.getElem?_set_ne h]

/-- The exact condition under which the `rewire` loop body re-parents index
`i` onto `new_node` in state `s`. -/
def rewireFires (s : RRTGraph) (n i : ℕ) : Prop :=
  ¬(i = n ∨ s.cost.length ≤ i ∨ s.cost.length ≤ n) ∧
  distance s i n < 35 ∧
  s.cost.getD n ⊤ + distance s i n < s.cost.getD i ⊤ ∧
  crossObstacles s.obstacles (s.x.getD n 0) (s.x.getD i 0)
    (s.y.getD n 0) (s.y.getD i 0) = false

theorem rewireStep_eq_of_fires {s : RRTGraph} {n i : ℕ} (h : rewireFires s n i) :
    rewireStep s n i =
      { s with parent := s.parent.set i n,
               cost := s.cost.set i (s.cost.getD n ⊤ + distance s i n) } := by
  unfold rewireStep
  dsimp only
  rw [if_neg h.1, if_pos h.2.1, if_pos h.2.2.1, if_pos (by simpa using h.2.2.2)]

theorem rewireStep_eq_of_not_fires {s : RRTGraph} {n i : ℕ} (h : ¬ rewireFires s n i) :
    rewireStep s n i = s := by
  unfold rewireStep
  dsimp only
  split
  · rfl
  split
  case isFalse => rfl
  split
  case isFalse => rfl
  split
  case isTrue h1 h2 h3 h4 =>
    exact absurd ⟨h1, h2, h3, by simpa using h4⟩ h
  case isFalse => rfl

/-- `rewireStep` leaves the cost and parent entries of every index other than
`i` unchanged, and never touches the entry of `new_node` itself. -/
theorem rewireStep_getD_ne (s : RRTGraph) (n i j : ℕ) (hji : j ≠ i) :
    (rewireStep s n i).cost.getD j ⊤ = s.cost.getD j ⊤ ∧
    (rewireStep s n i).parent.getD j 0 = s.parent.getD j 0 := by
  rcases rewireStep_shape s n i with h | h <;> rw [h]
  · exact ⟨rfl, rfl⟩
  · constructor <;> simp [List.getD, List.getElem?_set_ne (Ne.symm hji)]

theorem rewireStep_getD_new (s : RRTGraph) (n i : ℕ) :
    (rewireStep s n i).cost.getD n ⊤ = s.cost.getD n ⊤ := by
  by_cases hin : i = n
  · subst hin
    rw [rewireStep_eq_of_not_fires (fun h => h.1 (Or.inl rfl))]
  · exact (rewireStep_getD_ne s n i n (Ne.symm hin)).1

/-- Static fields across a whole `rewire` fold. -/
theorem foldl_rewireStep_static (n : ℕ) :
    ∀ (l : List ℕ) (g : RRTGraph),
      (l.foldl (fun s i => rewireStep s n i) g).x = g.x ∧
      (l.foldl (fun s i => rewireStep s n i) g).y = g.y ∧
      (l.foldl (fun s i => rewireStep s n i) g).obstacles = g.obstacles ∧
      (l.foldl (fun s i => rewireStep s n i) g).goalFlag = g.goalFlag ∧
      (l.foldl (fun s i => rewireStep s n i) g).goalstate = g.goalstate ∧
      (l.foldl (fun s i => rewireStep s n i) g).cost.length = g.cost.length ∧
      (l.foldl (fun s i => rewireStep s n i) g).parent.length = g.parent.length ∧
      (l.foldl (fun s i => rewireStep s n i) g).cost.getD n ⊤ = g.cost.getD n ⊤ := by
  intro l
  induction l with
  | nil => intro g; exact ⟨rfl, rfl, rfl, rfl, rfl, rfl, rfl, rfl⟩
  | cons a l ih =>
    intro g
    have hs := rewireStep_static g n a
    have hn := rewireStep_getD_new g n a
    have := ih (rewireStep g n a)
    simp only [List.foldl_cons]
    exact ⟨this.1.trans hs.1, this.2.1.trans hs.2.1, this.2.2.1.trans hs.2.2.1,
      this.2.2.2.1.trans hs.2.2.2.1, this.2.2.2.2.1.trans hs.2.2.2.2.1,
      this.2.2.2.2.2.1.trans hs.2.2.2.2.2.1, this.2.2.2.2.2.2.1.trans hs.2.2.2.2.2.2,
      this.2.2.2.2.2.2.2.trans hn⟩

/-- Indices not in the processed list are untouched by the `rewire` fold. -/
theorem foldl_rewireStep_not_mem (n : ℕ) :
    ∀ (l : List ℕ) (g : RRTGraph) (j : ℕ), j ∉ l →
      (l.foldl (fun s i => rewireStep s n i) g).cost.getD j ⊤ = g.cost.getD j ⊤ ∧
      (l.foldl (fun s i => rewireStep s n i) g).parent.getD j 0 = g.parent.getD j 0 := by
  intro l
  induction l with
  | nil => intro g j _; exact ⟨rfl, rfl⟩
  | cons a l ih =>
    intro g j hj
    rw [List.mem_cons] at hj
    push_neg at hj
    have h1 := rewireStep_getD_ne g n a j hj.1
    have h2 := ih (rewireStep g n a) j hj.2
    simp only [List.foldl_cons]
    exact ⟨h2.1.trans h1.1, h2.2.trans h1.2⟩

/-- `rewireFires` only depends on the fields that the fold keeps fixed at
indices `n` and `j`. -/
theorem rewireFires_congr {s g : RRTGraph} {n j : ℕ}
    (hx : s.x = g.x) (hy : s.y = g.y) (hobs : s.obstacles = g.obstacles)
    (hcl : s.cost.length = g.cost.length)
    (hcn : s.cost.getD n ⊤ = g.cost.getD n ⊤)
    (hcj : s.cost.getD j ⊤ = g.cost.getD j ⊤) :
    rewireFires s n j ↔ rewireFires g n j := by
  have hd : distance s j n = distance g j n := by
    unfold distance
    rw [hx, hy]
  unfold rewireFires
  rw [hx, hy, hobs, hcl, hcn, hcj, hd]

/-- Pointwise characterisation of the `rewire` fold over `range m`: the entry
of every processed index `j < m` is rewritten according to `rewireFires`
evaluated in the initial state, every other entry is untouched. -/
theorem rewire_fold_spec (n : ℕ) :
    ∀ (m : ℕ) (g : RRTGraph) (j : ℕ), j < m →
      ((List.range m).foldl (fun s i => rewireStep s n i) g).cost.getD j ⊤ =
        (if rewireFires g n j then g.cost.getD n ⊤ + distance g j n
         else g.cost.getD j ⊤) ∧
      ((List.range m).foldl (fun s i => rewireStep s n i) g).parent.getD j 0 =
        (if rewireFires g n j ∧ j < g.parent.length then n
         else g.parent.getD j 0) := by
  intro m
  induction m with
  | zero => intro g j hj; omega
  | succ m ih =>
    intro g j hj
    rw [List.range_succ, List.foldl_append]
    set F := (List.range m).foldl (fun s i => rewireStep s n i) g with hF
    have hstat := foldl_rewireStep_static n (List.range m) g
    rcases Nat.lt_or_ge j m with hjm | hjm
    · -- j was processed earlier; the final step (index m) does not touch it
      have hne : j ≠ m := Nat.ne_of_lt hjm
      simp only [List.foldl_cons, List.foldl_nil]
      have h1 := rewireStep_getD_ne F n m j hne
      rw [h1.1, h1.2]
      exact ih g j hjm
    · -- j = m: the final step acts on a state that agrees with g at j and n
      have hjem : j = m := by omega
      subst hjem
      have hmem : j ∉ List.range j := by simp
      have huntouched := foldl_rewireStep_not_mem n (List.range j) g j hmem
      simp only [List.foldl_cons, List.foldl_nil]
      have hfires : rewireFires F n j ↔ rewireFires g n j :=
        rewireFires_congr hstat.1 hstat.2.1 hstat.2.2.1
          hstat.2.2.2.2.2.1 hstat.2.2.2.2.2.2.2 huntouched.1
      by_cases hf : rewireFires g n j
      · have hff : rewireFires F n j := hfires.mpr hf
        rw [rewireStep_eq_of_fires hff]
        have hjc : j < F.cost.length := by
          rcases hff with ⟨h1, _, _, _⟩
          push_neg at h1
          omega
        have hd : distance F j n = distance g j n := by
          unfold distance
          rw [hstat.1, hstat.2.1]
        constructor
        · show (F.cost.set j (F.cost.getD n ⊤ + distance F j n)).getD j ⊤ = _
          rw [getD_set_same _ _ _ _ hjc, if_pos hf, hstat.2.2.2.2.2.2.2, hd]
        · by_cases hp : j < g.parent.length
          · have hp2 : j < F.parent.length := by rw [hstat.2.2.2.2.2.2.1]; exact hp
            show (F.parent.set j n).getD j 0 = _
            rw [getD_set_same _ _ _ _ hp2, if_pos ⟨hf, hp⟩]
          · have hp2 : F.parent.length ≤ j := by rw [hstat.2.2.2.2.2.2.1]; omega
            show (F.parent.set j n).getD j 0 = _
            rw [List.set_eq_of_length_le hp2, if_neg (fun h => hp h.2)]
            exact huntouched.2
      · have hff : ¬ rewireFires F n j := fun h => hf (hfires.mp h)
        rw [rewireStep_eq_of_not_fires hff, if_neg hf, if_neg (fun h => hf h.1)]
        exact huntouched

theorem rewire_of_oob {g : RRTGraph} {n : ℕ} (h : g.x.length ≤ n) : rewire g n = g := by
  unfold rewire
  rw [if_pos h]

theorem rewire_static (g : RRTGraph) (n : ℕ) :
    (rewire g n).x = g.x ∧ (rewire g n).y = g.y ∧
    (rewire g n).obstacles = g.obstacles ∧
    (rewire g n).goalFlag = g.goalFlag ∧
    (rewire g n).goalstate = g.goalstate ∧
    (rewire g n).cost.length = g.cost.length ∧
    (rewire g n).parent.length = g.parent.length ∧
    (rewire g n).cost.getD n ⊤ = g.cost.getD n ⊤ := by
  unfold rewire
  split
  · exact ⟨rfl, rfl, rfl, rfl, rfl, rfl, rfl, rfl⟩
  · exact foldl_rewireStep_static n (List.range g.x.length) g

/-- Pointwise description of `rewire`: the cost entry of an in-range index is
replaced by the candidate cost exactly when `rewireFires` holds, the parent
entry is redirected to `new_node` under the same condition, and out-of-range
indices are untouched. -/
theorem rewire_getD (g : RRTGraph) (n j : ℕ) (hn : n < g.x.length) (hj : j < g.x.length) :
    (rewire g n).cost.getD j ⊤ =
      (if rewireFires g n j then g.cost.getD n ⊤ + distance g j n
       else g.cost.getD j ⊤) ∧
    (rewire g n).parent.getD j 0 =
      (if rewireFires g n j ∧ j < g.parent.length then n
       else g.parent.getD j 0) := by
  unfold rewire
  rw [if_neg (by omega)]
  exact rewire_fold_spec n g.x.length g j hj

theorem rewire_getD_oob (g : RRTGraph) (n j : ℕ) (hj : g.x.length ≤ j) :
    (rewire g n).cost.getD j ⊤ = g.cost.getD j ⊤ ∧
    (rewire g n).parent.getD j 0 = g.parent.getD j 0 := by
  unfold rewire
  split
  · exact ⟨rfl, rfl⟩
  · exact foldl_rewireStep_not_mem n (List.range g.x.length) g j (by simp; omega)

theorem distance_comm (g : RRTGraph) (a b : ℕ) : distance g a b = distance g b a := by
  unfold distance
  by_cases h : g.x.length ≤ a ∨ g.x.length ≤ b
  · rw [if_pos h, if_pos (Or.symm h)]
  · rw [if_neg h, if_neg (fun hc => h (Or.symm hc))]
    congr 1
    ring

/-! ### C4: rewire is monotone on costs -/

/-- C4: for every tree state and node `newIdx`, a `rewire(newIdx)` call never
increases any recorded cost; every changed cost is strictly lower than before;
and a node `i` is re-parented onto `newIdx` only when the candidate cost
`cost[newIdx] + distance(newIdx, i)` is strictly below `cost[i]` and the
connecting segment is collision-free. -/
theorem c4_rewire_monotone (g : RRTGraph) (n i : ℕ) :
    (rewire g n).cost.getD i ⊤ ≤ g.cost.getD i ⊤ ∧
    ((rewire g n).cost.getD i ⊤ ≠ g.cost.getD i ⊤ →
      (rewire g n).cost.getD i ⊤ < g.cost.getD i ⊤) ∧
    ((rewire g n).parent.getD i 0 ≠ g.parent.getD i 0 →
      (rewire g n).parent.getD i 0 = n ∧
      g.cost.getD n ⊤ + distance g n i < g.cost.getD i ⊤ ∧
      crossObstacles g.obstacles (g.x.getD n 0) (g.x.getD i 0)
        (g.y.getD n 0) (g.y.getD i 0) = false) := by
  by_cases hn : n < g.x.length
  · by_cases hi : i < g.x.length
    · obtain ⟨hc, hp⟩ := rewire_getD g n i hn hi
      by_cases hf : rewireFires g n i
      · have hlt : g.cost.getD n ⊤ + distance g i n < g.cost.getD i ⊤ := hf.2.2.1
        rw [hc, if_pos hf]
        refine ⟨hlt.le, fun _ => hlt, fun hne => ?_⟩
        rw [hp] at hne ⊢
        by_cases hip : i < g.parent.length
        · rw [if_pos ⟨hf, hip⟩]
          rw [distance_comm g n i]
          exact ⟨rfl, hf.2.2.1, hf.2.2.2⟩
        · rw [if_neg (fun hq => hip hq.2)] at hne
          exact absurd rfl hne
      · rw [hc, if_neg hf, hp, if_neg (fun hq => hf hq.1)]
        exact ⟨le_refl _, fun h => absurd rfl h, fun h => absurd rfl h⟩
    · obtain ⟨hc, hp⟩ := rewire_getD_oob g n i (by omega)
      rw [hc, hp]
      exact ⟨le_refl _, fun h => absurd rfl h, fun h => absurd rfl h⟩
  · rw [rewire_of_oob (by omega)]
    exact ⟨le_refl _, fun h => absurd rfl h, fun h => absurd rfl h⟩

/-- A concrete three-node state in which rewiring onto node 1 improves the
cost of node 2 (`0 -(30)- 1`, node 2 at `(60,0)` with inflated cost 70). -/
noncomputable def gW4 : RRTGraph :=
  { start := (0, 0), goal := (500, 500), goalFlag := false,
    x := [0, 30, 60], y := [0, 0, 0], parent := [0, 0, 0], cost := [0, 30, 70],
    obstacles := [], goalstate := none, path := [] }

theorem gW4_fires : rewireFires gW4 1 2 := by
  refine ⟨by simp [gW4], ?_, ?_, by rfl⟩
  · have hd : distance gW4 2 1 = edn 900 := by simp [distance, gW4]
    rw [hd, show (35:ℝ≥0∞) = ((35:ℕ):ℝ≥0∞) by norm_num, edn_lt_natCast (by norm_num)]
    norm_num
  · have hd : distance gW4 2 1 = edn 900 := by simp [distance, gW4]
    rw [hd, edn_eval (show (900:ℤ) = ((30:ℕ):ℤ)^2 by norm_num)]
    show (30:ℝ≥0∞) + 30 < 70
    norm_num

theorem gW4_cost_eval : (rewire gW4 1).cost.getD 2 ⊤ = 60 := by
  rw [(rewire_getD gW4 1 2 (by simp [gW4]) (by simp [gW4])).1, if_pos gW4_fires]
  have hd : distance gW4 2 1 = edn 900 := by simp [distance, gW4]
  rw [hd, edn_eval (show (900:ℤ) = ((30:ℕ):ℤ)^2 by norm_num)]
  show (30:ℝ≥0∞) + 30 = 60
  norm_num

theorem gW4_parent_eval : (rewire gW4 1).parent.getD 2 0 = 1 := by
  rw [(rewire_getD gW4 1 2 (by simp [gW4]) (by simp [gW4])).2,
    if_pos ⟨gW4_fires, by simp [gW4]⟩]

/-- C4 witness: in `gW4`, `rewire 1` strictly lowers the cost of node 2 and
re-parents it, and the theorem's implications apply with their hypotheses
discharged. -/
theorem c4_rewire_monotone_witness :
    (rewire gW4 1).cost.getD 2 ⊤ ≠ gW4.cost.getD 2 ⊤ ∧
    (rewire gW4 1).cost.getD 2 ⊤ < gW4.cost.getD 2 ⊤ ∧
    (rewire gW4 1).parent.getD 2 0 ≠ gW4.parent.getD 2 0 ∧
    (rewire gW4 1).parent.getD 2 0 = 1 := by
  have hne : (rewire gW4 1).cost.getD 2 ⊤ ≠ gW4.cost.getD 2 ⊤ := by
    rw [gW4_cost_eval, show gW4.cost.getD 2 ⊤ = 70 by rfl]
    norm_num
  have hpne : (rewire gW4 1).parent.getD 2 0 ≠ gW4.parent.getD 2 0 := by
    rw [gW4_parent_eval, show gW4.parent.getD 2 0 = 0 by rfl]
    norm_num
  exact ⟨hne, (c4_rewire_monotone gW4 1 2).2.1 hne,
    hpne, ((c4_rewire_monotone gW4 1 2).2.2 hpne).1⟩

/-! ### C9: the distance contract -/

/-- C9: `distance(i, j)` is the Euclidean distance of the stored node
positions when both indices are in bounds, and `float('inf')` (modelled `⊤`)
whenever either index is out of bounds of the node sequence. -/
theorem c9_distance_spec (g : RRTGraph) (n1 n2 : ℕ) :
    (n1 < g.x.length → n2 < g.x.length →
      distance g n1 n2 = ENNReal.ofReal (Real.sqrt
        (((g.x.getD n1 0 - g.x.getD n2 0) ^ 2 + (g.y.getD n1 0 - g.y.getD n2 0) ^ 2 : ℤ) : ℝ))) ∧
    (g.x.length ≤ n1 ∨ g.x.length ≤ n2 → distance g n1 n2 = ⊤) := by
  constructor
  · intro h1 h2
    unfold distance
    rw [if_neg (by omega)]
    rfl
  · intro h
    unfold distance
    rw [if_pos h]

/-- C9 witness: in the concrete state `gW4`, in-bounds indices give the
Euclidean distance and the out-of-bounds index 5 gives `⊤`. -/
theorem c9_distance_spec_witness :
    distance gW4 0 1 = ENNReal.ofReal (Real.sqrt
      (((gW4.x.getD 0 0 - gW4.x.getD 1 0) ^ 2 + (gW4.y.getD 0 0 - gW4.y.getD 1 0) ^ 2 : ℤ) : ℝ)) ∧
    distance gW4 0 5 = ⊤ :=
  ⟨(c9_distance_spec gW4 0 1).1 (by simp [gW4]) (by simp [gW4]),
   (c9_distance_spec gW4 0 5).2 (Or.inr (by simp [gW4]))⟩

/-! ### C8: the nearest-node query -/

/-- Invariant of the `nearest` linear scan: after processing `range m` the
accumulator holds the distance of its candidate, the candidate is below `m`,
it minimises the distance among `i < m`, and it is the least minimiser. -/
theorem nearest_fold_spec (g : RRTGraph) (n : ℕ) :
    ∀ m : ℕ, 0 < m →
      (((List.range m).foldl
        (fun acc i => if distance g i n < acc.1 then (distance g i n, i) else acc)
        (distance g 0 n, 0)).1 =
        distance g ((List.range m).foldl
          (fun acc i => if distance g i n < acc.1 then (distance g i n, i) else acc)
          (distance g 0 n, 0)).2 n) ∧
      ((List.range m).foldl
        (fun acc i => if distance g i n < acc.1 then (distance g i n, i) else acc)
        (distance g 0 n, 0)).2 < m ∧
      (∀ i < m, ((List.range m).foldl
        (fun acc i => if distance g i n < acc.1 then (distance g i n, i) else acc)
        (distance g 0 n, 0)).1 ≤ distance g i n) ∧
      (∀ i < m, distance g i n = ((List.range m).foldl
        (fun acc i => if distance g i n < acc.1 then (distance g i n, i) else acc)
        (distance g 0 n, 0)).1 →
        ((List.range m).foldl
          (fun acc i => if distance g i n < acc.1 then (distance g i n, i) else acc)
          (distance g 0 n, 0)).2 ≤ i) := by
  intro m
  induction m with
  | zero => omega
  | succ m ih =>
    intro _
    rcases Nat.eq_zero_or_pos m with hm | hm
    · subst hm
      simp only [List.range_succ, List.range_zero, List.nil_append, List.foldl_cons,
        List.foldl_nil]
      rw [if_neg (lt_irrefl (distance g 0 n))]
      refine ⟨rfl, by omega, ?_, ?_⟩
      · intro i hi
        interval_cases i
        exact le_refl _
      · intro i _ _
        omega
    · obtain ⟨h1, h2, h3, h4⟩ := ih hm
      set acc := (List.range m).foldl
        (fun acc i => if distance g i n < acc.1 then (distance g i n, i) else acc)
        (distance g 0 n, 0) with hacc
      rw [List.range_succ, List.foldl_append, List.foldl_cons, List.foldl_nil, ← hacc]
      by_cases hlt : distance g m n < acc.1
      · rw [if_pos hlt]
        refine ⟨rfl, by omega, ?_, ?_⟩
        · intro i hi
          rcases Nat.lt_or_ge i m with him | him
          · exact le_trans hlt.le (h3 i him)
          · have : i = m := by omega
            subst this
            exact le_refl _
        · intro i hi he
          rcases Nat.lt_or_ge i m with him | him
          · exact absurd he (by
              have := h3 i him
              intro hc
              rw [hc] at this
              exact absurd hlt (not_lt_of_le this))
          · omega
      · rw [if_neg hlt]
        refine ⟨h1, by omega, ?_, ?_⟩
        · intro i hi
          rcases Nat.lt_or_ge i m with him | him
          · exact h3 i him
          · have : i = m := by omega
            subst this
            exact le_of_not_lt hlt
        · intro i hi he
          rcases Nat.lt_or_ge i m with him | him
          · exact h4 i him he
          · omega

/-- C8: for `0 < n`, `nearest(n)` returns an index among `0..n-1` whose
distance to node `n` is minimal, and among all minimisers the lowest index. -/
theorem c8_nearest_spec (g : RRTGraph) (n : ℕ) (h : 0 < n) :
    nearest g n < n ∧
    (∀ i < n, distance g (nearest g n) n ≤ distance g i n) ∧
    (∀ i < n, distance g i n = distance g (nearest g n) n → nearest g n ≤ i) := by
  obtain ⟨h1, h2, h3, h4⟩ := nearest_fold_spec g n n h
  have hN : nearest g n = ((List.range n).foldl
      (fun acc i => if distance g i n < acc.1 then (distance g i n, i) else acc)
      (distance g 0 n, 0)).2 := rfl
  rw [hN]
  refine ⟨h2, ?_, ?_⟩
  · intro i hi
    have := h3 i hi
    rw [h1] at this
    exact this
  · intro i hi he
    exact h4 i hi (by rw [he, h1])

/-- C8 witness: in `gW4`, `nearest 2` exists below 2 and its distance to node
2 is at most that of node 1, with the hypothesis `0 < 2` discharged. -/
theorem c8_nearest_spec_witness :
    nearest gW4 2 < 2 ∧ distance gW4 (nearest gW4 2) 2 ≤ distance gW4 1 2 :=
  ⟨(c8_nearest_spec gW4 2 (by norm_num)).1,
   (c8_nearest_spec gW4 2 (by norm_num)).2.1 1 (by norm_num)⟩

/-! ### C7: the segment collision test -/

/-- Characterisation of `crossObstacles`: a hit is reported exactly when one
of the 201 sample parameters `i/200` puts the sampled point inside one of the
obstacles. -/
theorem crossObstacles_iff (obs : List Rect) (x1 x2 y1 y2 : ℤ) :
    crossObstacles obs x1 x2 y1 y2 = true ↔
      ∃ r ∈ obs, ∃ i : ℕ, i < 201 ∧
        r.collidepoint ((x1 : ℚ) * ((i : ℚ) / 200) + (x2 : ℚ) * (1 - (i : ℚ) / 200))
          ((y1 : ℚ) * ((i : ℚ) / 200) + (y2 : ℚ) * (1 - (i : ℚ) / 200)) = true := by
  unfold crossObstacles
  rw [List.any_eq_true]
  constructor
  · rintro ⟨r, hr, hany⟩
    rw [List.any_eq_true] at hany
    obtain ⟨i, hi, hc⟩ := hany
    exact ⟨r, hr, i, List.mem_range.mp hi, hc⟩
  · rintro ⟨r, hr, i, hi, hc⟩
    refine ⟨r, hr, ?_⟩
    rw [List.any_eq_true]
    exact ⟨i, List.mem_range.mpr hi, hc⟩

/-- C7: `crossObstacles` reports a hit exactly when one of the 201 equally
spaced parametric samples `u = i/200`, `i = 0..200` (endpoints included) of
the segment lies inside one of the obstacles; a segment fully contained in an
obstacle of the set is reported as a hit, and with no obstacles every segment
is reported free. -/
theorem c7_crossObstacles_spec :
    (∀ (obs : List Rect) (x1 x2 y1 y2 : ℤ),
      crossObstacles obs x1 x2 y1 y2 = true ↔
        ∃ r ∈ obs, ∃ i : ℕ, i < 201 ∧
          r.collidepoint ((x1 : ℚ) * ((i : ℚ) / 200) + (x2 : ℚ) * (1 - (i : ℚ) / 200))
            ((y1 : ℚ) * ((i : ℚ) / 200) + (y2 : ℚ) * (1 - (i : ℚ) / 200)) = true) ∧
    (∀ (obs : List Rect) (r : Rect) (x1 x2 y1 y2 : ℤ), r ∈ obs →
      (∀ u : ℚ, 0 ≤ u → u ≤ 1 →
        r.collidepoint ((x1 : ℚ) * u + (x2 : ℚ) * (1 - u))
          ((y1 : ℚ) * u + (y2 : ℚ) * (1 - u)) = true) →
      crossObstacles obs x1 x2 y1 y2 = true) ∧
    (∀ x1 x2 y1 y2 : ℤ, crossObstacles [] x1 x2 y1 y2 = false) := by
  refine ⟨crossObstacles_iff, ?_, fun x1 x2 y1 y2 => rfl⟩
  intro obs r x1 x2 y1 y2 hr hcont
  rw [crossObstacles_iff]
  refine ⟨r, hr, 0, by norm_num, ?_⟩
  have h0 := hcont 0 (le_refl 0) (by norm_num)
  have e1 : (x1 : ℚ) * ((0 : ℚ) / 200) + (x2 : ℚ) * (1 - (0 : ℚ) / 200) =
      (x1 : ℚ) * 0 + (x2 : ℚ) * (1 - 0) := by norm_num
  have e2 : (y1 : ℚ) * ((0 : ℚ) / 200) + (y2 : ℚ) * (1 - (0 : ℚ) / 200) =
      (y1 : ℚ) * 0 + (y2 : ℚ) * (1 - 0) := by norm_num
  rw [show ((0 : ℕ) : ℚ) = (0 : ℚ) by norm_num, e1, e2]
  exact h0

/-- C7 witness: the degenerate segment at `(5,5)` inside the obstacle
`(0,0,10,10)` is reported as a hit, and the same segment with an empty
obstacle set is reported free. -/
theorem c7_crossObstacles_spec_witness :
    crossObstacles [⟨0, 0, 10, 10⟩] 5 5 5 5 = true ∧
    crossObstacles [] 5 5 5 5 = false := by
  constructor
  · refine c7_crossObstacles_spec.2.1 [⟨0, 0, 10, 10⟩] ⟨0, 0, 10, 10⟩ 5 5 5 5
      (by simp) ?_
    intro u _ _
    rw [show (5 : ℤ) = (5 : ℤ) from rfl]
    rw [show ((5 : ℤ) : ℚ) * u + ((5 : ℤ) : ℚ) * (1 - u) = (5 : ℚ) by push_cast; ring]
    decide
  · exact c7_crossObstacles_spec.2.2 5 5 5 5

/-! ### Parent-pointer chains -/

theorem getD_oob {α : Type} (l : List α) (n : ℕ) (d : α) (h : l.length ≤ n) :
    l.getD n d = d := by
  simp [List.getD, List.getElem?_eq_none h]

theorem getD_append_left {α : Type} (l l2 : List α) (j : ℕ) (d : α) (h : j < l.length) :
    (l ++ l2).getD j d = l.getD j d := by
  simp [List.getD, List.getElem?_append_left h]

theorem getD_append_right {α : Type} (l : List α) (a d : α) :
    (l ++ [a]).getD l.length d = a := by
  simp [List.getD, List.getElem?_append_right (le_refl l.length)]

theorem erase_concat {α : Type} (l : List α) (a : α) : (l ++ [a]).eraseIdx l.length = l := by
  rw [List.eraseIdx_append_of_length_le (le_refl _)]
  simp

/-- `k`-fold iteration of the parent map (`getD` with default `0`). -/
def parIter (p : List ℕ) : ℕ → ℕ → ℕ
  | 0, i => i
  | k + 1, i => parIter p k (p.getD i 0)

/-- The parent walk from `i` eventually hits the root index 0. -/
def reaches (p : List ℕ) (i : ℕ) : Prop := ∃ k, parIter p k i = 0

theorem parIter_add (p : List ℕ) (a b i : ℕ) :
    parIter p (a + b) i = parIter p a (parIter p b i) := by
  induction b generalizing i with
  | zero => rfl
  | succ b ih =>
    show parIter p (a + b + 1) i = _
    rw [show a + b + 1 = (a + b) + 1 from rfl]
    rw [parIter, ih, parIter]

theorem parIter_root (p : List ℕ) (h0 : p.getD 0 0 = 0) : ∀ k, parIter p k 0 = 0 := by
  intro k
  induction k with
  | zero => rfl
  | succ k ih => rw [parIter, h0, ih]

/-- Along any parent chain the recorded costs are non-increasing, given the
per-edge monotonicity and a zero root cost. -/
theorem parIter_cost_le (p : List ℕ) (cost : List ℝ≥0∞)
    (hmono : ∀ i < p.length, cost.getD (p.getD i 0) ⊤ ≤ cost.getD i ⊤)
    (h0 : cost.getD 0 ⊤ = 0) :
    ∀ (k v : ℕ), cost.getD (parIter p k v) ⊤ ≤ cost.getD v ⊤ := by
  intro k
  induction k with
  | zero => intro v; exact le_refl _
  | succ k ih =>
    intro v
    rw [parIter]
    refine le_trans (ih (p.getD v 0)) ?_
    by_cases hv : v < p.length
    · exact hmono v hv
    · rw [getD_oob p v 0 (by omega), h0]
      exact zero_le _

/-- Chains that avoid the re-parented index are unchanged by the update. -/
theorem parIter_set_avoid (p : List ℕ) (i n : ℕ) :
    ∀ (t v : ℕ), (∀ s ≤ t, parIter p s v ≠ i) →
      parIter (p.set i n) t v = parIter p t v := by
  intro t
  induction t with
  | zero => intro v _; rfl
  | succ t ih =>
    intro v havoid
    have hv : v ≠ i := by
      have := havoid 0 (by omega)
      simpa [parIter] using this
    rw [parIter, parIter, getD_set_other p n 0 (fun h => hv h.symm)]
    refine ih (p.getD v 0) ?_
    intro s hs
    have := havoid (s + 1) (by omega)
    rw [parIter] at this
    exact this

/-- The heart of the acyclicity argument: re-parenting `i` onto a node `n`
whose recorded cost is strictly below `cost[i]` preserves reachability of the
root from every node, because the chain of `n` can never pass through `i`
(costs are non-increasing toward the root). -/
theorem reaches_set (p : List ℕ) (cost : List ℝ≥0∞) (i n : ℕ)
    (hmono : ∀ j < p.length, cost.getD (p.getD j 0) ⊤ ≤ cost.getD j ⊤)
    (h0 : cost.getD 0 ⊤ = 0)
    (hlt : cost.getD n ⊤ < cost.getD i ⊤)
    (hall : ∀ j, reaches p j) :
    ∀ j, reaches (p.set i n) j := by
  by_cases hip : i < p.length
  swap
  · rw [List.set_eq_of_length_le (by omega)]
    exact hall
  -- the chain of n avoids i
  have havoid : ∀ t, parIter p t n ≠ i := by
    intro t hc
    have hle := parIter_cost_le p cost hmono h0 t n
    rw [hc] at hle
    exact absurd hlt (not_lt_of_le hle)
  obtain ⟨m, hm⟩ := hall n
  have hmn : parIter (p.set i n) m n = 0 := by
    rw [parIter_set_avoid p i n m n (fun s _ => havoid s)]
    exact hm
  -- strong induction on the length of the old chain
  have main : ∀ k j, parIter p k j = 0 → reaches (p.set i n) j := by
    intro k
    induction k with
    | zero =>
      intro j hj
      exact ⟨0, hj⟩
    | succ k ih =>
      intro j hj
      by_cases hj0 : j = 0
      · exact ⟨0, hj0⟩
      by_cases hji : j = i
      · refine ⟨m + 1, ?_⟩
        rw [hji, parIter, getD_set_same p i n 0 hip]
        exact hmn
      · rw [parIter] at hj
        obtain ⟨k2, hk2⟩ := ih (p.getD j 0) hj
        refine ⟨k2 + 1, ?_⟩
        rw [parIter, getD_set_other p n 0 (fun h => hji h.symm)]
        exact hk2
  intro j
  obtain ⟨k, hk⟩ := hall j
  exact main k j hk

/-- Appending a new parent entry pointing below the old length preserves
reachability of the root. -/
theorem reaches_append (p : List ℕ) (v : ℕ)
    (hrange : ∀ j < p.length, p.getD j 0 < p.length) (hv : v < p.length)
    (hall : ∀ j, reaches p j) :
    ∀ j, reaches (p ++ [v]) j := by
  have htrans : ∀ (k j : ℕ), j < p.length → parIter (p ++ [v]) k j = parIter p k j := by
    intro k
    induction k with
    | zero => intro j _; rfl
    | succ k ih =>
      intro j hj
      rw [parIter, parIter, getD_append_left p [v] j 0 hj]
      exact ih (p.getD j 0) (hrange j hj)
  intro j
  rcases Nat.lt_trichotomy j p.length with hj | hj | hj
  · obtain ⟨k, hk⟩ := hall j
    exact ⟨k, by rw [htrans k j hj]; exact hk⟩
  · subst hj
    obtain ⟨k, hk⟩ := hall v
    refine ⟨k + 1, ?_⟩
    rw [parIter, getD_append_right p v 0, htrans k v hv]
    exact hk
  · refine ⟨1, ?_⟩
    show (p ++ [v]).getD j 0 = 0
    rw [getD_oob _ j 0 (by simp; omega)]

/-- Pigeonhole bound: when all parent entries stay below `L`, a node below `L`
that reaches the root does so within `L` steps. -/
theorem reaches_bound (p : List ℕ) (L : ℕ)
    (hrange : ∀ j < p.length, p.getD j 0 < L) (hL : 0 < L)
    (j : ℕ) (hj : j < L) (hr : reaches p j) :
    ∃ k ≤ L, parIter p k j = 0 := by
  classical
  let k0 := Nat.find hr
  have hk0 : parIter p k0 j = 0 := Nat.find_spec hr
  have hmin : ∀ t < k0, parIter p t j ≠ 0 := fun t ht => Nat.find_min hr ht
  -- all chain values before the end are below L and nonzero
  have hvals : ∀ t < k0, parIter p t j < L := by
    intro t
    induction t with
    | zero => intro _; exact hj
    | succ t ih =>
      intro ht
      have htl : t < k0 := by omega
      have hprev := ih htl
      show parIter p (t + 1) j < L
      rw [show t + 1 = 1 + t from by omega, parIter_add]
      show p.getD (parIter p t j) 0 < L
      by_cases hp : parIter p t j < p.length
      · exact hrange _ hp
      · rw [getD_oob _ _ _ (by omega)]
        exact hL
  -- injectivity of the chain on [0, k0)
  have hinj : ∀ a < k0, ∀ b < k0, parIter p a j = parIter p b j → a = b := by
    intro a ha b hb hab
    by_contra hne
    -- wlog a < b
    rcases Nat.lt_or_ge a b with hal | hal
    · have : parIter p (k0 - b + a) j = 0 := by
        rw [parIter_add, hab, ← parIter_add]
        rw [show k0 - b + b = k0 from by omega]
        exact hk0
      exact hmin (k0 - b + a) (by omega) this
    · have hba : b < a := by omega
      have : parIter p (k0 - a + b) j = 0 := by
        rw [parIter_add, ← hab, ← parIter_add]
        rw [show k0 - a + a = k0 from by omega]
        exact hk0
      exact hmin (k0 - a + b) (by omega) this
  -- the k0 distinct nonzero values below L force k0 ≤ L - 1
  have hcard : k0 ≤ L - 1 := by
    by_contra hgt
    push_neg at hgt
    have hinj2 : Set.InjOn (fun t => parIter p t j) (Finset.range k0) := by
      intro a ha b hb hab
      simp only [Finset.coe_range, Set.mem_Iio] at ha hb
      exact hinj a ha b hb hab
    have hmaps : ∀ t ∈ Finset.range k0,
        (fun t => parIter p t j) t ∈ (Finset.range L).erase 0 := by
      intro t ht
      rw [Finset.mem_range] at ht
      rw [Finset.mem_erase, Finset.mem_range]
      exact ⟨hmin t ht, hvals t ht⟩
    have := Finset.card_le_card_of_injOn _ hmaps hinj2
    rw [Finset.card_range, Finset.card_erase_of_mem (Finset.mem_range.mpr hL),
      Finset.card_range] at this
    omega
  exact ⟨k0, by omega, hk0⟩

/-! ### The tree invariant -/

/-- The planner invariant at iteration boundaries: parallel lists are aligned
(`cost` may be longer, see `remove_node`), the root is the self-parented index
0 with cost 0, every parent index is a live node, recorded costs are
non-increasing along edges toward the root, and every node reaches the root. -/
structure TreeInv (g : RRTGraph) : Prop where
  hy : g.y.length = g.x.length
  hpl : g.parent.length = g.x.length
  hcl : g.x.length ≤ g.cost.length
  hone : 1 ≤ g.x.length
  hp0 : g.parent.getD 0 0 = 0
  hc0 : g.cost.getD 0 ⊤ = 0
  hrange : ∀ i < g.parent.length, g.parent.getD i 0 < g.x.length
  hmono : ∀ i < g.parent.length, g.cost.getD (g.parent.getD i 0) ⊤ ≤ g.cost.getD i ⊤
  hreach : ∀ i, reaches g.parent i

theorem inv_init (s g : ℤ × ℤ) : TreeInv (initGraph s g) := by
  refine ⟨rfl, rfl, by simp [initGraph], by simp [initGraph], rfl, rfl, ?_, ?_, ?_⟩
  · intro i hi
    simp [initGraph] at hi
    subst hi
    simp [initGraph]
  · intro i hi
    simp [initGraph] at hi
    subst hi
    exact le_refl _
  · intro i
    rcases Nat.eq_zero_or_pos i with h | h
    · subst h
      exact ⟨0, rfl⟩
    · refine ⟨1, ?_⟩
      show (initGraph s g).parent.getD i 0 = 0
      rcases Nat.lt_or_ge i (initGraph s g).parent.length with hi | hi
      · simp [initGraph] at hi
        omega
      · exact getD_oob _ i 0 hi

/-- Transport of the invariant along states that only differ in obstacles,
flags, path, and a cost list extended on the right. -/
theorem inv_transport {g g2 : RRTGraph} (h : TreeInv g)
    (hx : g2.x = g.x) (hy : g2.y = g.y) (hp : g2.parent = g.parent)
    (hc : ∃ extra : List ℝ≥0∞, g2.cost = g.cost ++ extra) : TreeInv g2 := by
  obtain ⟨extra, hc⟩ := hc
  have hc0 : 0 < g.cost.length := by
    have := h.hcl
    have := h.hone
    omega
  refine ⟨?_, ?_, ?_, ?_, ?_, ?_, ?_, ?_, ?_⟩
  · rw [hx, hy, h.hy]
  · rw [hx, hp, h.hpl]
  · rw [hx, hc]
    simp only [List.length_append]
    have := h.hcl
    omega
  · rw [hx]; exact h.hone
  · rw [hp]; exact h.hp0
  · rw [hc, getD_append_left _ _ 0 ⊤ hc0]; exact h.hc0
  · intro i hi
    rw [hp] at hi ⊢
    rw [hx]
    exact h.hrange i hi
  · intro i hi
    rw [hp] at hi ⊢
    have h1 : i < g.cost.length := by
      have := h.hpl; have := h.hcl; omega
    have h2 : g.parent.getD i 0 < g.cost.length := by
      have := h.hrange i hi; have := h.hcl; omega
    rw [hc, getD_append_left _ _ _ ⊤ h1, getD_append_left _ _ _ ⊤ h2]
    exact h.hmono i hi
  · intro i
    rw [hp]
    exact h.hreach i

theorem nearest_lt (g : RRTGraph) (n : ℕ) (h : 0 < n) : nearest g n < n :=
  (nearest_fold_spec g n n h).2.1

/-- One rewiring step preserves the tree invariant: the cost guard forbids
re-parenting onto a descendant (the cycle argument via `reaches_set`). -/
theorem rewireStep_inv (s : RRTGraph) (n i : ℕ) (hn : n < s.x.length)
    (h : TreeInv s) : TreeInv (rewireStep s n i) := by
  by_cases hf : rewireFires s n i
  swap
  · rw [rewireStep_eq_of_not_fires hf]
    exact h
  have hguard := hf.1
  push_neg at hguard
  obtain ⟨hin, hic, hnc⟩ := hguard
  have hcost : s.cost.getD n ⊤ + distance s i n < s.cost.getD i ⊤ := hf.2.2.1
  have hi0 : i ≠ 0 := by
    intro h0
    rw [h0, h.hc0] at hcost
    simp at hcost
  have hlt : s.cost.getD n ⊤ < s.cost.getD i ⊤ := lt_of_le_of_lt le_self_add hcost
  rw [rewireStep_eq_of_fires hf]
  refine ⟨h.hy, ?_, ?_, h.hone, ?_, ?_, ?_, ?_, ?_⟩
  · simpa using h.hpl
  · simpa using h.hcl
  · show (s.parent.set i n).getD 0 0 = 0
    rw [getD_set_other s.parent n 0 hi0]
    exact h.hp0
  · show (s.cost.set i _).getD 0 ⊤ = 0
    rw [getD_set_other s.cost _ ⊤ hi0]
    exact h.hc0
  · intro j hj
    simp only [List.length_set] at hj
    show (s.parent.set i n).getD j 0 < s.x.length
    by_cases hji : j = i
    · subst hji
      rw [getD_set_same s.parent j n 0 hj]
      exact hn
    · rw [getD_set_other s.parent n 0 (Ne.symm hji)]
      exact h.hrange j hj
  · intro j hj
    simp only [List.length_set] at hj
    by_cases hji : j = i
    · subst hji
      show (s.cost.set j _).getD ((s.parent.set j n).getD j 0) ⊤ ≤
        (s.cost.set j _).getD j ⊤
      rw [getD_set_same s.parent j n 0 hj,
        getD_set_other s.cost _ ⊤ hin,
        getD_set_same s.cost j _ ⊤ (by omega)]
      exact le_self_add
    · show (s.cost.set i _).getD ((s.parent.set i n).getD j 0) ⊤ ≤
        (s.cost.set i _).getD j ⊤
      rw [getD_set_other s.parent n 0 (Ne.symm hji)]
      by_cases hpj : s.parent.getD j 0 = i
      · rw [hpj, getD_set_same s.cost i _ ⊤ (by omega),
          getD_set_other s.cost _ ⊤ (Ne.symm hji)]
        exact le_trans hcost.le (hpj ▸ h.hmono j hj)
      · rw [getD_set_other s.cost _ ⊤ (fun hq => hpj hq.symm),
          getD_set_other s.cost _ ⊤ (Ne.symm hji)]
        exact h.hmono j hj
  · exact reaches_set s.parent s.cost i n h.hmono h.hc0 hlt h.hreach

theorem rewire_inv (g : RRTGraph) (n : ℕ) (h : TreeInv g) : TreeInv (rewire g n) := by
  unfold rewire
  split
  case isTrue => exact h
  case isFalse hoob =>
    push_neg at hoob
    have haux : ∀ (l : List ℕ) (s : RRTGraph), s.x = g.x → TreeInv s →
        TreeInv (l.foldl (fun s i => rewireStep s n i) s) := by
      intro l
      induction l with
      | nil => intro s _ hs; exact hs
      | cons a l ih =>
        intro s hsx hs
        simp only [List.foldl_cons]
        refine ih (rewireStep s n a) ?_ ?_
        · rw [(rewireStep_static s n a).1, hsx]
        · exact rewireStep_inv s n a (by rw [hsx]; exact hoob) hs
    exact haux (List.range g.x.length) g rfl h

/-- Adding the connecting edge for the freshly steered node preserves the
invariant; `h` is the pre-`connect` state of an iteration (one node appended
to `x`/`y`, parents untouched, cost extended on the right). -/
theorem inv_add_edge {g h : RRTGraph} (hg : TreeInv g) (nnear : ℕ)
    (hx : h.x.length = g.x.length + 1) (hy : h.y.length = h.x.length)
    (hp : h.parent = g.parent)
    (extra : List ℝ≥0∞) (hc : h.cost = g.cost ++ extra) (hel : 1 ≤ extra.length)
    (hnn : nnear < g.x.length) :
    TreeInv (add_edge h nnear g.x.length) := by
  have hplen : g.parent.length = g.x.length := hg.hpl
  have hclen : g.x.length ≤ g.cost.length := hg.hcl
  have hone : 1 ≤ g.x.length := hg.hone
  have hcost0 : 0 < g.cost.length := by omega
  have hjlen : ∀ j : ℕ, j < (add_edge h nnear g.x.length).parent.length →
      j < g.parent.length + 1 := by
    intro j hj
    have hlen : (add_edge h nnear g.x.length).parent.length = h.parent.length + 1 := by
      simp [add_edge]
    rw [hlen, hp] at hj
    exact hj
  refine ⟨?_, ?_, ?_, ?_, ?_, ?_, ?_, ?_, ?_⟩
  · show h.y.length = h.x.length
    exact hy
  · show (h.parent ++ [nnear]).length = h.x.length
    rw [List.length_append, hp, hplen]
    simpa using hx.symm
  · show h.x.length ≤ (h.cost.set _ _).length
    rw [List.length_set, hc, List.length_append]
    omega
  · show 1 ≤ h.x.length
    omega
  · show (h.parent ++ [nnear]).getD 0 0 = 0
    rw [hp, getD_append_left g.parent [nnear] 0 0 (by omega)]
    exact hg.hp0
  · show (h.cost.set (g.x.length) _).getD 0 ⊤ = 0
    rw [getD_set_other h.cost _ ⊤ (by omega), hc,
      getD_append_left g.cost extra 0 ⊤ hcost0]
    exact hg.hc0
  · intro j hj
    have hj2 := hjlen j hj
    show (h.parent ++ [nnear]).getD j 0 < h.x.length
    rw [hp]
    rcases Nat.lt_or_ge j g.parent.length with hjl | hjl
    · rw [getD_append_left g.parent [nnear] j 0 hjl]
      have := hg.hrange j hjl
      omega
    · have : j = g.parent.length := by omega
      subst this
      rw [getD_append_right g.parent nnear 0]
      omega
  · intro j hj
    have hj2 := hjlen j hj
    show (h.cost.set _ _).getD ((h.parent ++ [nnear]).getD j 0) ⊤ ≤
      (h.cost.set _ _).getD j ⊤
    rw [hp]
    rcases Nat.lt_or_ge j g.parent.length with hjl | hjl
    · have hq := hg.hrange j hjl
      rw [getD_append_left g.parent [nnear] j 0 hjl,
        getD_set_other h.cost _ ⊤ (by omega),
        getD_set_other h.cost _ ⊤ (by omega), hc,
        getD_append_left g.cost extra _ ⊤ (by omega),
        getD_append_left g.cost extra j ⊤ (by omega)]
      exact hg.hmono j hjl
    · have : j = g.parent.length := by omega
      subst this
      rw [getD_append_right g.parent nnear 0,
        getD_set_other h.cost _ ⊤ (by omega),
        show g.parent.length = g.x.length from hplen,
        getD_set_same h.cost g.x.length _ ⊤ (by rw [hc, List.length_append]; omega)]
      exact le_self_add
  · intro j
    show reaches (h.parent ++ [nnear]) j
    rw [hp]
    refine reaches_append g.parent nnear ?_ (by omega) hg.hreach j
    intro q hq
    have := hg.hrange q hq
    omega

/-- Coarse description of `step`: it leaves the state unchanged, or replaces
the last node (remove and re-append), possibly snapping to the goal and
arming the flag. -/
theorem step_effect (g : RRTGraph) (a b : ℕ) (dmax : ℕ) :
    step g a b dmax = g ∨
    ∃ px py : ℤ,
      step g a b dmax = add_node (remove_node g b) b px py ∨
      step g a b dmax =
        { add_node (remove_node g b) b g.goal.1 g.goal.2 with
          goalstate := some b, goalFlag := true } := by
  unfold step
  dsimp only
  split
  case isFalse => exact Or.inl rfl
  case isTrue =>
    split
    case isTrue => exact Or.inr ⟨g.goal.1, g.goal.2, Or.inr rfl⟩
    case isFalse => exact Or.inr ⟨_, _, Or.inl rfl⟩

theorem isFree_of_hit {g : RRTGraph}
    (h : (g.obstacles.any fun r => r.collidepoint ((g.x.getD (g.x.length - 1) 0 : ℤ) : ℚ)
      ((g.y.getD (g.x.length - 1) 0 : ℤ) : ℚ)) = true) :
    isFree g = (remove_node g (g.x.length - 1), false) := by
  unfold isFree
  dsimp only
  rw [if_pos h]

theorem isFree_of_free {g : RRTGraph}
    (h : (g.obstacles.any fun r => r.collidepoint ((g.x.getD (g.x.length - 1) 0 : ℤ) : ℚ)
      ((g.y.getD (g.x.length - 1) 0 : ℤ) : ℚ)) = false) :
    isFree g = (g, true) := by
  unfold isFree
  dsimp only
  rw [h]
  simp

theorem connect_of_cross {g : RRTGraph} {n1 n2 : ℕ}
    (h : crossObstacles g.obstacles (g.x.getD n1 0) (g.x.getD n2 0)
      (g.y.getD n1 0) (g.y.getD n2 0) = true) :
    connect g n1 n2 = (remove_node g n2, false) := by
  unfold connect
  dsimp only
  rw [if_pos h]

theorem connect_of_free {g : RRTGraph} {n1 n2 : ℕ}
    (h : crossObstacles g.obstacles (g.x.getD n1 0) (g.x.getD n2 0)
      (g.y.getD n1 0) (g.y.getD n2 0) = false) :
    connect g n1 n2 = (add_edge g n1 n2, true) := by
  unfold connect
  dsimp only
  rw [h]
  simp

/-- The pre-`connect` state of an iteration: one node appended to `x` and `y`,
parents and obstacles untouched, cost extended on the right. -/
theorem step_shape (g : RRTGraph) (p : ℤ × ℤ) (nn : ℕ)
    (hy0 : g.y.length = g.x.length) :
    ∃ (qx qy : ℤ) (extra : List ℝ≥0∞),
      (step (add_node g g.x.length p.1 p.2) nn g.x.length 35).x = g.x ++ [qx] ∧
      (step (add_node g g.x.length p.1 p.2) nn g.x.length 35).y = g.y ++ [qy] ∧
      (step (add_node g g.x.length p.1 p.2) nn g.x.length 35).parent = g.parent ∧
      (step (add_node g g.x.length p.1 p.2) nn g.x.length 35).obstacles = g.obstacles ∧
      (step (add_node g g.x.length p.1 p.2) nn g.x.length 35).cost = g.cost ++ extra ∧
      1 ≤ extra.length := by
  set n := g.x.length with hn
  set g1 := add_node g n p.1 p.2 with hg1
  have hg1x : g1.x = g.x ++ [p.1] := rfl
  have hg1y : g1.y = g.y ++ [p.2] := rfl
  have hrx : (remove_node g1 n).x = g.x := by
    show g1.x.eraseIdx n = g.x
    rw [hg1x, hn, erase_concat]
  have hry : (remove_node g1 n).y = g.y := by
    show g1.y.eraseIdx n = g.y
    rw [hg1y, ← hy0, erase_concat]
  rcases step_effect g1 nn n 35 with he | ⟨px, py, he | he⟩
  · refine ⟨p.1, p.2, [⊤], ?_⟩
    rw [he]
    exact ⟨hg1x, hg1y, rfl, rfl, rfl, by simp⟩
  · refine ⟨px, py, [⊤, ⊤], ?_⟩
    rw [he]
    refine ⟨?_, ?_, rfl, rfl, ?_, by simp⟩
    · show (remove_node g1 n).x ++ [px] = g.x ++ [px]
      rw [hrx]
    · show (remove_node g1 n).y ++ [py] = g.y ++ [py]
      rw [hry]
    · show g1.cost ++ [⊤] = g.cost ++ [⊤, ⊤]
      show (g.cost ++ [⊤]) ++ [⊤] = g.cost ++ [⊤, ⊤]
      simp
  · refine ⟨g1.goal.1, g1.goal.2, [⊤, ⊤], ?_⟩
    rw [he]
    refine ⟨?_, ?_, rfl, rfl, ?_, by simp⟩
    · show (remove_node g1 n).x ++ [g1.goal.1] = g.x ++ [g1.goal.1]
      rw [hrx]
    · show (remove_node g1 n).y ++ [g1.goal.2] = g.y ++ [g1.goal.2]
      rw [hry]
    · show g1.cost ++ [⊤] = g.cost ++ [⊤, ⊤]
      show (g.cost ++ [⊤]) ++ [⊤] = g.cost ++ [⊤, ⊤]
      simp

/-- The tail of an iteration (steer, connect, rewire) preserves the tree
invariant, given a nearest index below the old length. -/
theorem tail_inv (g : RRTGraph) (p : ℤ × ℤ) (nn : ℕ) (h : TreeInv g)
    (hnlt : nn < g.x.length) :
    TreeInv (rewire
      ((connect (step (add_node g g.x.length p.1 p.2) nn g.x.length 35) nn g.x.length).1)
      g.x.length) := by
  obtain ⟨qx, qy, extra, hsx, hsy, hsp, hso, hsc, hel⟩ := step_shape g p nn h.hy
  set n := g.x.length with hn
  set g3 := step (add_node g n p.1 p.2) nn n 35 with hg3
  have hxlen : g3.x.length = n + 1 := by rw [hsx]; simp [hn]
  have hylen : g3.y.length = g3.x.length := by
    rw [hsx, hsy]
    simp [h.hy]
  by_cases hcross : crossObstacles g3.obstacles (g3.x.getD nn 0) (g3.x.getD n 0)
      (g3.y.getD nn 0) (g3.y.getD n 0) = true
  · rw [connect_of_cross hcross]
    have herx : (remove_node g3 n).x = g.x := by
      show g3.x.eraseIdx n = g.x
      rw [hsx, hn, erase_concat]
    have hrem : (remove_node g3 n).x.length = n := by rw [herx]
    rw [rewire_of_oob (le_of_eq hrem)]
    refine inv_transport h herx ?_ hsp ⟨extra, hsc⟩
    · show g3.y.eraseIdx n = g.y
      rw [hsy, hn, ← h.hy, erase_concat]
  · rw [connect_of_free (by simpa using hcross)]
    have hinv4 : TreeInv (add_edge g3 nn g.x.length) :=
      inv_add_edge h nn (by rw [hxlen, hn]) hylen hsp extra hsc hel
        (by rw [← hn]; exact hnlt)
    exact rewire_inv _ n (by rw [hn]; exact hinv4)

/-- `expand` preserves the tree invariant, whatever point is sampled. -/
theorem expand_inv (g : RRTGraph) (p : ℤ × ℤ) (h : TreeInv g) :
    TreeInv (expand g p) := by
  unfold expand
  dsimp only
  set n := g.x.length with hn
  set g1 := add_node g n p.1 p.2 with hg1
  have hg1x : g1.x = g.x ++ [p.1] := rfl
  have hg1y : g1.y = g.y ++ [p.2] := rfl
  have hg1len : g1.x.length = n + 1 := by rw [hg1x]; simp [hn]
  have hlast : g1.x.length - 1 = n := by omega
  by_cases hfree : (g1.obstacles.any fun r =>
      r.collidepoint ((g1.x.getD (g1.x.length - 1) 0 : ℤ) : ℚ)
        ((g1.y.getD (g1.x.length - 1) 0 : ℤ) : ℚ)) = true
  · rw [isFree_of_hit hfree]
    simp only [Bool.false_eq_true, if_false]
    refine inv_transport h ?_ ?_ rfl ⟨[⊤], rfl⟩
    · show g1.x.eraseIdx (g1.x.length - 1) = g.x
      rw [hlast, hg1x, hn, erase_concat]
    · show g1.y.eraseIdx (g1.x.length - 1) = g.y
      rw [hlast, hg1y, hn, ← h.hy, erase_concat]
  · rw [isFree_of_free (by simpa using hfree)]
    simp only [if_true]
    exact tail_inv g p (nearest g1 n) h (nearest_lt g1 n (by have := h.hone; omega))

/-- `bias` preserves the tree invariant, whatever goal point is handed in. -/
theorem bias_inv (g : RRTGraph) (q : ℤ × ℤ) (h : TreeInv g) :
    TreeInv (bias g q) := by
  unfold bias
  dsimp only
  exact tail_inv g q (nearest (add_node g g.x.length q.1 q.2) g.x.length) h
    (nearest_lt _ g.x.length (by have := h.hone; omega))

/-- States of a planning run: the `__init__` state, followed by any sequence
of `expand`/`bias` iterations; `makeobs` (the external obstacle generator)
installs some obstacle list and touches nothing else, modelled by allowing an
arbitrary obstacle list at any point. -/
inductive Reachable : RRTGraph → Prop
  | init (s g : ℤ × ℤ) : Reachable (initGraph s g)
  | expandStep (g : RRTGraph) (p : ℤ × ℤ) : Reachable g → Reachable (expand g p)
  | biasStep (g : RRTGraph) (q : ℤ × ℤ) : Reachable g → Reachable (bias g q)
  | makeobs (g : RRTGraph) (obs : List Rect) : Reachable g →
      Reachable { g with obstacles := obs }

theorem reachable_inv {g : RRTGraph} (h : Reachable g) : TreeInv g := by
  induction h with
  | init s g => exact inv_init s g
  | expandStep g p _ ih => exact expand_inv g p ih
  | biasStep g q _ ih => exact bias_inv g q ih
  | makeobs g obs _ ih =>
    exact ⟨ih.hy, ih.hpl, ih.hcl, ih.hone, ih.hp0, ih.hc0, ih.hrange, ih.hmono, ih.hreach⟩

/-! ### C3: the parent relation is a tree rooted at 0 -/

/-- C3: after every completed `expand()` or `bias()` iteration (any reachable
state), the parent relation is rooted at index 0 (`parent[0] = 0`) and
following parent pointers from any live node reaches index 0 within a number
of hops bounded by the current tree size; in particular no `rewire` call ever
introduces a cycle. -/
theorem c3_no_cycles (g : RRTGraph) (h : Reachable g) :
    g.parent.getD 0 0 = 0 ∧
    ∀ i < g.x.length, ∃ k ≤ g.x.length, parIter g.parent k i = 0 := by
  have hinv := reachable_inv h
  refine ⟨hinv.hp0, ?_⟩
  intro i hi
  refine reaches_bound g.parent g.x.length ?_ (by have := hinv.hone; omega) i hi
    (hinv.hreach i)
  intro j hj
  rw [hinv.hpl] at hj
  exact hinv.hrange j (by rw [hinv.hpl]; exact hj)

/-- C3 witness: the freshly initialised graph is reachable, its root is
self-parented, and node 0 reaches the root within the tree size. -/
theorem c3_no_cycles_witness :
    (initGraph (0, 0) (500, 500)).parent.getD 0 0 = 0 ∧
    ∃ k ≤ (initGraph (0, 0) (500, 500)).x.length,
      parIter (initGraph (0, 0) (500, 500)).parent k 0 = 0 :=
  ⟨(c3_no_cycles _ (Reachable.init (0, 0) (500, 500))).1,
   (c3_no_cycles _ (Reachable.init (0, 0) (500, 500))).2 0 (by simp [initGraph])⟩

/-! ### C6: path extraction before goal capture -/

/-- C6 (amended): before `path_to_goal` has ever returned `True` the stored
path is empty and `getPathCord` returns the empty list — the source raises no
InvalidState error; `path_to_goal` itself returns `False` and leaves the state
untouched while the goal flag is down. -/
theorem c6_getPathCord_before_goal (g : RRTGraph) :
    (g.goalFlag = false → path_to_goal g = (g, false)) ∧
    (g.path = [] → getPathCord g = []) := by
  constructor
  · intro hflag
    unfold path_to_goal
    cases hgs : g.goalstate with
    | none => rfl
    | some gs =>
      dsimp only
      rw [if_neg (by rw [hflag]; simp)]
  · intro hpath
    unfold getPathCord
    rw [hpath]
    rfl

/-- C6 witness: on the freshly initialised graph, `path_to_goal` reports
`False` and `getPathCord` returns the empty list. -/
theorem c6_getPathCord_before_goal_witness :
    path_to_goal (initGraph (0, 0) (400, 400)) = (initGraph (0, 0) (400, 400), false) ∧
    getPathCord (initGraph (0, 0) (400, 400)) = [] :=
  ⟨(c6_getPathCord_before_goal _).1 rfl, (c6_getPathCord_before_goal _).2 rfl⟩

/-- C6 counterexample: calling `getPathCord` on the fresh state — before any
successful `path_to_goal` and with `goalFlag` down — does not fail with any
error condition: it returns the ordinary value `[]`. -/
theorem c6_no_invalid_state_cex :
    (initGraph (0, 0) (400, 400)).goalFlag = false ∧
    (path_to_goal (initGraph (0, 0) (400, 400))).2 = false ∧
    getPathCord (initGraph (0, 0) (400, 400)) = [] :=
  ⟨rfl, by rw [(c6_getPathCord_before_goal _).1 rfl], by
    rw [(c6_getPathCord_before_goal _).2 rfl]⟩

/-! ### C10: the cost-list drift -/

/-- Initial state of the C10 run: start at the origin, goal far away. -/
noncomputable def c10g0 : RRTGraph := initGraph (0, 0) (500, 500)

/-- State after the tentative append of the sample `(100, 0)`. -/
noncomputable def c10g1 : RRTGraph := add_node c10g0 1 100 0

theorem c10_isFree : isFree c10g1 = (c10g1, true) := isFree_of_free rfl

theorem c10_nearest : nearest c10g1 1 = 0 := by
  unfold nearest
  simp only [show List.range 1 = [0] from rfl, List.foldl_cons, List.foldl_nil]
  rw [if_neg (lt_irrefl _)]

theorem c10_d01 : distance c10g1 0 1 = edn 10000 := by
  simp [distance, c10g1, add_node, c10g0, initGraph]

theorem c10_step : step c10g1 0 1 35 = add_node (remove_node c10g1 1) 1 35 0 := by
  obtain ⟨hcos, hsin⟩ := @atan2_cos_sin (100 : ℝ) 0 100 (by norm_num) (by norm_num)
  unfold step
  dsimp only
  rw [if_pos (by
    rw [c10_d01, natCast_lt_edn]
    norm_num)]
  rw [if_neg (by
    simp only [c10g1, add_node, c10g0, initGraph]
    norm_num [List.getD]
    rw [hcos, hsin, pyInt_eval (k := 35) (by norm_num), pyInt_eval (k := 0) (by norm_num)]
    decide)]
  simp only [c10g1, add_node, c10g0, initGraph]
  norm_num [List.getD]
  rw [hcos, hsin, pyInt_eval (k := 35) (by norm_num), pyInt_eval (k := 0) (by norm_num)]
  exact ⟨rfl, rfl⟩

/-- State after the steer replaced the sample by the truncated point `(35,0)`:
note the cost list has grown twice while `x` holds two entries. -/
noncomputable def c10g3 : RRTGraph := add_node (remove_node c10g1 1) 1 35 0

/-- Final state of the C10 iteration. -/
noncomputable def c10g4 : RRTGraph :=
  { start := (0, 0), goal := (500, 500), goalFlag := false,
    x := [0, 35], y := [0, 0], parent := [0, 0], cost := [0, 35, ⊤],
    obstacles := [], goalstate := none, path := [] }

theorem c10_d01g3 : distance c10g3 0 1 = edn 1225 := by
  simp [distance, c10g3, c10g1, add_node, remove_node, c10g0, initGraph]

theorem c10_connect : connect c10g3 0 1 = (c10g4, true) := by
  rw [@connect_of_free c10g3 0 1 rfl]
  have h35 : edn 1225 = ((35 : ℕ) : ℝ≥0∞) :=
    edn_eval (show (1225 : ℤ) = ((35 : ℕ) : ℤ) ^ 2 by norm_num)
  unfold add_edge
  rw [c10_d01g3, h35]
  simp [c10g4, c10g3, c10g1, add_node, remove_node, c10g0, initGraph, List.set]

theorem c10_rewire : rewire c10g4 1 = c10g4 := by
  unfold rewire
  rw [if_neg (by simp [c10g4])]
  have hlen : c10g4.x.length = 2 := rfl
  rw [hlen]
  simp only [show List.range 2 = [0, 1] from rfl, List.foldl_cons, List.foldl_nil]
  have hd : distance c10g4 0 1 = edn 1225 := by simp [distance, c10g4]
  have hf0 : ¬ rewireFires c10g4 1 0 := fun hf => by
    have h2 := hf.2.1
    rw [hd, show (35 : ℝ≥0∞) = ((35 : ℕ) : ℝ≥0∞) by norm_num,
      edn_lt_natCast (by norm_num)] at h2
    norm_num at h2
  rw [show rewireStep c10g4 1 0 = c10g4 from rewireStep_eq_of_not_fires hf0]
  rw [show rewireStep c10g4 1 1 = c10g4 from
    rewireStep_eq_of_not_fires (fun hf => hf.1 (Or.inl rfl))]

theorem c10_expand : expand c10g0 (100, 0) = c10g4 := by
  unfold expand
  dsimp only
  rw [show c10g0.x.length = 1 from rfl,
    show add_node c10g0 1 (100, 0).1 (100, 0).2 = c10g1 from rfl,
    c10_isFree]
  dsimp only
  rw [c10_nearest, c10_step,
    show add_node (remove_node c10g1 1) 1 35 0 = c10g3 from rfl,
    c10_connect]
  dsimp only
  exact c10_rewire

/-- C10 counterexample: the iteration starting from the fresh graph with
sample `(100, 0)` rejects nothing — the point-free test and the connection
both succeed — yet after it the cost list is one entry longer than the node
list, because the steer truncation also goes through remove/append. -/
theorem c10_drift_cex :
    (isFree c10g1).2 = true ∧
    (connect c10g3 0 1).2 = true ∧
    expand c10g0 (100, 0) = c10g4 ∧
    c10g4.cost.length = c10g4.x.length + 1 :=
  ⟨by rw [c10_isFree], by rw [c10_connect], c10_expand, rfl⟩

/-- `x`-and-cost shape of the pre-`connect` state of an iteration (no
alignment assumption on `y`). -/
theorem step_shape_x (g : RRTGraph) (p : ℤ × ℤ) (nn : ℕ) :
    ∃ (qx : ℤ) (extra : List ℝ≥0∞),
      (step (add_node g g.x.length p.1 p.2) nn g.x.length 35).x = g.x ++ [qx] ∧
      (step (add_node g g.x.length p.1 p.2) nn g.x.length 35).parent = g.parent ∧
      (step (add_node g g.x.length p.1 p.2) nn g.x.length 35).cost = g.cost ++ extra ∧
      1 ≤ extra.length := by
  set n := g.x.length with hn
  set g1 := add_node g n p.1 p.2 with hg1
  have hg1x : g1.x = g.x ++ [p.1] := rfl
  have hrx : (remove_node g1 n).x = g.x := by
    show g1.x.eraseIdx n = g.x
    rw [hg1x, hn, erase_concat]
  rcases step_effect g1 nn n 35 with he | ⟨px, py, he | he⟩
  · refine ⟨p.1, [⊤], ?_⟩
    rw [he]
    exact ⟨hg1x, rfl, rfl, by simp⟩
  · refine ⟨px, [⊤, ⊤], ?_⟩
    rw [he]
    refine ⟨?_, rfl, ?_, by simp⟩
    · show (remove_node g1 n).x ++ [px] = g.x ++ [px]
      rw [hrx]
    · show g1.cost ++ [⊤] = g.cost ++ [⊤, ⊤]
      show (g.cost ++ [⊤]) ++ [⊤] = g.cost ++ [⊤, ⊤]
      simp
  · refine ⟨g1.goal.1, [⊤, ⊤], ?_⟩
    rw [he]
    refine ⟨?_, rfl, ?_, by simp⟩
    · show (remove_node g1 n).x ++ [g1.goal.1] = g.x ++ [g1.goal.1]
      rw [hrx]
    · show g1.cost ++ [⊤] = g.cost ++ [⊤, ⊤]
      show (g.cost ++ [⊤]) ++ [⊤] = g.cost ++ [⊤, ⊤]
      simp

/-- The steer/connect/rewire tail never decreases the cost-over-x surplus. -/
theorem tail_drift (g : RRTGraph) (p : ℤ × ℤ) (nn : ℕ) :
    (g.cost.length : ℤ) - g.x.length ≤
      ((rewire ((connect (step (add_node g g.x.length p.1 p.2) nn g.x.length 35)
        nn g.x.length).1) g.x.length).cost.length : ℤ) -
      (rewire ((connect (step (add_node g g.x.length p.1 p.2) nn g.x.length 35)
        nn g.x.length).1) g.x.length).x.length := by
  obtain ⟨qx, extra, hsx, hsp, hsc, hel⟩ := step_shape_x g p nn
  set n := g.x.length with hn
  set g3 := step (add_node g n p.1 p.2) nn n 35 with hg3
  have hxlen : g3.x.length = n + 1 := by rw [hsx]; simp [hn]
  have hclen : g3.cost.length = g.cost.length + extra.length := by
    rw [hsc]; simp
  by_cases hcross : crossObstacles g3.obstacles (g3.x.getD nn 0) (g3.x.getD n 0)
      (g3.y.getD nn 0) (g3.y.getD n 0) = true
  · rw [connect_of_cross hcross]
    have herx : (remove_node g3 n).x = g.x := by
      show g3.x.eraseIdx n = g.x
      rw [hsx, hn, erase_concat]
    rw [rewire_of_oob (le_of_eq (by rw [herx]))]
    have h1 : (remove_node g3 n).cost = g3.cost := rfl
    rw [h1, herx, hclen]
    omega
  · rw [connect_of_free (by simpa using hcross)]
    have hstat := rewire_static (add_edge g3 nn n) n
    have h1 : (add_edge g3 nn n).x = g3.x := rfl
    have h2 : (add_edge g3 nn n).cost.length = g3.cost.length := by
      show (g3.cost.set n _).length = g3.cost.length
      simp
    rw [hstat.2.2.2.2.2.1, hstat.1, h1, h2, hxlen, hclen]
    omega

/-- C10 (amended): `remove_node` pops only `x`/`y` and keeps `cost`, while
`add_node` appends to `x`, `y` and `cost`; consequently the surplus of the
cost-list length over the node-list length never decreases across `expand` or
`bias` — it grows by one on a rejected sample, a rejected edge, and also on
every steer truncation (which replaces the node by a remove/append pair), so
after the first such event `cost[k]` no longer corresponds to the node at
position `k` for the trailing slots. -/
theorem c10_cost_drift (g : RRTGraph) (n : ℕ) (px py : ℤ) (p : ℤ × ℤ) :
    ((remove_node g n).cost = g.cost ∧ (remove_node g n).x = g.x.eraseIdx n) ∧
    ((add_node g n px py).cost = g.cost ++ [⊤] ∧ (add_node g n px py).x = g.x ++ [px]) ∧
    ((g.cost.length : ℤ) - g.x.length ≤
      ((expand g p).cost.length : ℤ) - (expand g p).x.length) ∧
    ((g.cost.length : ℤ) - g.x.length ≤
      ((bias g p).cost.length : ℤ) - (bias g p).x.length) := by
  refine ⟨⟨rfl, rfl⟩, ⟨rfl, rfl⟩, ?_, ?_⟩
  · unfold expand
    dsimp only
    set g1 := add_node g g.x.length p.1 p.2 with hg1
    have hg1x : g1.x = g.x ++ [p.1] := rfl
    have hg1len : g1.x.length = g.x.length + 1 := by rw [hg1x]; simp
    by_cases hfree : (g1.obstacles.any fun r =>
        r.collidepoint ((g1.x.getD (g1.x.length - 1) 0 : ℤ) : ℚ)
          ((g1.y.getD (g1.x.length - 1) 0 : ℤ) : ℚ)) = true
    · rw [isFree_of_hit hfree]
      simp only [Bool.false_eq_true, if_false]
      have hx : (remove_node g1 (g1.x.length - 1)).x = g.x := by
        show g1.x.eraseIdx (g1.x.length - 1) = g.x
        rw [hg1x]
        simp only [List.length_append, List.length_cons, List.length_nil]
        rw [show g.x.length + (0 + 1) - 1 = g.x.length from by omega, erase_concat]
      have hc : (remove_node g1 (g1.x.length - 1)).cost = g.cost ++ [⊤] := rfl
      rw [hx, hc]
      simp only [List.length_append, List.length_cons, List.length_nil]
      omega
    · rw [isFree_of_free (by simpa using hfree)]
      simp only [if_true]
      exact tail_drift g p (nearest g1 g.x.length)
  · unfold bias
    dsimp only
    exact tail_drift g p (nearest (add_node g g.x.length p.1 p.2) g.x.length)

/-- C10 amended-theorem witness: the drift inequality applied to the concrete
C10 iteration (no hypotheses beyond concrete instantiation; the inequality is
strict there by the counterexample). -/
theorem c10_cost_drift_witness :
    ((c10g0.cost.length : ℤ) - c10g0.x.length ≤
      ((expand c10g0 (100, 0)).cost.length : ℤ) - (expand c10g0 (100, 0)).x.length) ∧
    (remove_node c10g4 1).cost = c10g4.cost :=
  ⟨(c10_cost_drift c10g0 0 0 0 (100, 0)).2.2.1, ((c10_cost_drift c10g4 1 0 0 (0, 0)).1).1⟩

/-! ### C2: the goal flag and goal state -/

theorem step_goalFlag (g : RRTGraph) (a b d : ℕ) (h : g.goalFlag = true) :
    (step g a b d).goalFlag = true := by
  rcases step_effect g a b d with he | ⟨px, py, he | he⟩ <;> rw [he] <;>
    first | rfl | exact h

theorem connect_fst_goalFlag (g : RRTGraph) (n1 n2 : ℕ) :
    (connect g n1 n2).1.goalFlag = g.goalFlag := by
  by_cases hc : crossObstacles g.obstacles (g.x.getD n1 0) (g.x.getD n2 0)
      (g.y.getD n1 0) (g.y.getD n2 0) = true
  · rw [connect_of_cross hc]
    rfl
  · rw [connect_of_free (by simpa using hc)]
    rfl

theorem connect_fst_goalstate (g : RRTGraph) (n1 n2 : ℕ) :
    (connect g n1 n2).1.goalstate = g.goalstate := by
  by_cases hc : crossObstacles g.obstacles (g.x.getD n1 0) (g.x.getD n2 0)
      (g.y.getD n1 0) (g.y.getD n2 0) = true
  · rw [connect_of_cross hc]
    rfl
  · rw [connect_of_free (by simpa using hc)]
    rfl

/-- C2 (amended): once `goalFlag` is armed it stays armed across every later
`expand()` or `bias()` iteration (no operation resets it); but the flag is
armed inside the steer step — before the connecting edge is validated — and a
later capture overwrites `goalstate`, so the goal node is not fixed (see the
counterexample). -/
theorem c2_goalflag_persists (g : RRTGraph) (p : ℤ × ℤ) (h : g.goalFlag = true) :
    (expand g p).goalFlag = true ∧ (bias g p).goalFlag = true := by
  constructor
  · unfold expand
    dsimp only
    set g1 := add_node g g.x.length p.1 p.2 with hg1
    by_cases hfree : (g1.obstacles.any fun r =>
        r.collidepoint ((g1.x.getD (g1.x.length - 1) 0 : ℤ) : ℚ)
          ((g1.y.getD (g1.x.length - 1) 0 : ℤ) : ℚ)) = true
    · rw [isFree_of_hit hfree]
      simp only [Bool.false_eq_true, if_false]
      exact h
    · rw [isFree_of_free (by simpa using hfree)]
      simp only [if_true]
      rw [(rewire_static _ _).2.2.2.1, connect_fst_goalFlag]
      exact step_goalFlag _ _ _ _ h
  · unfold bias
    dsimp only
    rw [(rewire_static _ _).2.2.2.1, connect_fst_goalFlag]
    exact step_goalFlag _ _ _ _ h

/-- Initial state of the C2 run: the goal `(35, 0)` is one steer step to the
right of the start. -/
noncomputable def c2g0 : RRTGraph := initGraph (0, 0) (35, 0)

noncomputable def c2g1 : RRTGraph := add_node c2g0 1 100 0

/-- State after the first iteration: the steered point `(35, 0)` snapped onto
the goal, `goalFlag` armed, `goalstate = 1`. -/
noncomputable def c2gA : RRTGraph :=
  { start := (0, 0), goal := (35, 0), goalFlag := true,
    x := [0, 35], y := [0, 0], parent := [0, 0], cost := [0, 35, ⊤],
    obstacles := [], goalstate := some 1, path := [] }

theorem c2_nearest1 : nearest c2g1 1 = 0 := by
  unfold nearest
  simp only [show List.range 1 = [0] from rfl, List.foldl_cons, List.foldl_nil]
  rw [if_neg (lt_irrefl _)]

theorem c2_d01 : distance c2g1 0 1 = edn 10000 := by
  simp [distance, c2g1, add_node, c2g0, initGraph]

theorem c2_step1 : step c2g1 0 1 35 =
    { add_node (remove_node c2g1 1) 1 35 0 with goalstate := some 1, goalFlag := true } := by
  obtain ⟨hcos, hsin⟩ := @atan2_cos_sin (100 : ℝ) 0 100 (by norm_num) (by norm_num)
  unfold step
  dsimp only
  rw [if_pos (by rw [c2_d01, natCast_lt_edn]; norm_num)]
  rw [if_pos (by
    simp only [c2g1, add_node, c2g0, initGraph]
    norm_num [List.getD]
    rw [hcos, hsin, pyInt_eval (k := 35) (by norm_num), pyInt_eval (k := 0) (by norm_num)]
    decide)]
  simp only [c2g1, add_node, remove_node, c2g0, initGraph]

theorem c2_expand1 : expand c2g0 (100, 0) = c2gA := by
  unfold expand
  dsimp only
  rw [show c2g0.x.length = 1 from rfl,
    show add_node c2g0 1 (100, 0).1 (100, 0).2 = c2g1 from rfl,
    @isFree_of_free c2g1 rfl]
  dsimp only
  rw [c2_nearest1, c2_step1]
  set g3 := { add_node (remove_node c2g1 1) 1 35 0 with
    goalstate := some 1, goalFlag := true } with hg3
  rw [@connect_of_free g3 0 1 rfl]
  dsimp only
  have hd : distance g3 0 1 = edn 1225 := by
    simp [distance, hg3, c2g1, add_node, remove_node, c2g0, initGraph]
  have h35 : edn 1225 = ((35 : ℕ) : ℝ≥0∞) :=
    edn_eval (show (1225 : ℤ) = ((35 : ℕ) : ℤ) ^ 2 by norm_num)
  have hae : add_edge g3 0 1 = c2gA := by
    unfold add_edge
    rw [hd, h35]
    simp [hg3, c2gA, c2g1, add_node, remove_node, c2g0, initGraph, List.set]
  rw [hae]
  -- rewire c2gA 1
  unfold rewire
  rw [if_neg (show ¬ (c2gA.x.length ≤ 1) by simp [c2gA])]
  rw [show c2gA.x.length = 2 from rfl]
  simp only [show List.range 2 = [0, 1] from rfl, List.foldl_cons, List.foldl_nil]
  have hdA : distance c2gA 0 1 = edn 1225 := by simp [distance, c2gA]
  have hf0 : ¬ rewireFires c2gA 1 0 := fun hf => by
    have h2 := hf.2.1
    rw [hdA, show (35 : ℝ≥0∞) = ((35 : ℕ) : ℝ≥0∞) by norm_num,
      edn_lt_natCast (by norm_num)] at h2
    norm_num at h2
  rw [show rewireStep c2gA 1 0 = c2gA from rewireStep_eq_of_not_fires hf0]
  rw [show rewireStep c2gA 1 1 = c2gA from
    rewireStep_eq_of_not_fires (fun hf => hf.1 (Or.inl rfl))]
  simp

noncomputable def c2g1b : RRTGraph := add_node c2gA 2 80 60

theorem c2_d12 : distance c2g1b 1 2 = edn 5625 := by
  simp [distance, c2g1b, c2gA, add_node]

theorem c2_d02 : distance c2g1b 0 2 = edn 10000 := by
  simp [distance, c2g1b, c2gA, add_node]

theorem c2_nearest2 : nearest c2g1b 2 = 1 := by
  unfold nearest
  simp only [show List.range 2 = [0, 1] from rfl, List.foldl_cons, List.foldl_nil]
  rw [if_neg (lt_irrefl _)]
  rw [if_pos (by rw [c2_d12, c2_d02, edn_lt_edn (by norm_num)]; norm_num)]

theorem c2_step2 : step c2g1b 1 2 35 =
    { add_node (remove_node c2g1b 2) 2 35 0 with goalstate := some 2, goalFlag := true } := by
  obtain ⟨hcos, hsin⟩ := @atan2_cos_sin (45 : ℝ) 60 75 (by norm_num) (by norm_num)
  unfold step
  dsimp only
  rw [if_pos (by rw [c2_d12, natCast_lt_edn]; norm_num)]
  rw [if_pos (by
    simp only [c2g1b, c2gA, add_node]
    norm_num [List.getD]
    rw [hcos, hsin, pyInt_eval (k := 56) (by norm_num), pyInt_eval (k := 28) (by norm_num)]
    decide)]
  simp only [c2g1b, c2gA, add_node, remove_node]

/-- C2 counterexample: a run with start `(0,0)` and goal `(35,0)`. The first
iteration (sample `(100, 0)`) snaps onto the goal and records
`goalstate = 1`; the second iteration (sample `(80, 60)`) snaps onto the goal
again and overwrites `goalstate` with 2, so after the flag is armed the goal
state is not fixed and a second goal-coincident node is recorded. -/
theorem c2_goalstate_cex :
    expand c2g0 (100, 0) = c2gA ∧
    c2gA.goalFlag = true ∧
    c2gA.goalstate = some 1 ∧
    (expand c2gA (80, 60)).goalstate = some 2 := by
  refine ⟨c2_expand1, rfl, rfl, ?_⟩
  unfold expand
  dsimp only
  rw [show c2gA.x.length = 2 from rfl,
    show add_node c2gA 2 (80, 60).1 (80, 60).2 = c2g1b from rfl,
    @isFree_of_free c2g1b rfl]
  dsimp only
  rw [c2_nearest2, c2_step2]
  rw [if_pos (show (true = true) from rfl)]
  rw [(rewire_static _ _).2.2.2.2.1, connect_fst_goalstate]

/-- C2 amended-theorem witness: the flag-persistence theorem applied to the
concrete armed state `c2gA`, with its hypothesis discharged by `rfl`. -/
theorem c2_goalflag_persists_witness :
    (expand c2gA (100, 100)).goalFlag = true ∧ (bias c2gA (35, 0)).goalFlag = true :=
  ⟨(c2_goalflag_persists c2gA (100, 100) rfl).1,
   (c2_goalflag_persists c2gA (35, 0) rfl).2⟩

/-! ### C5: bias versus expand -/

/-- A state whose goal `(40, 30)` lies inside the single obstacle. -/
noncomputable def c5g : RRTGraph :=
  { initGraph (0, 0) (40, 30) with obstacles := [⟨30, 20, 20, 20⟩] }

noncomputable def c5g1 : RRTGraph := add_node c5g 1 40 30

theorem c5_nearest : nearest c5g1 1 = 0 := by
  unfold nearest
  simp only [show List.range 1 = [0] from rfl, List.foldl_cons, List.foldl_nil]
  rw [if_neg (lt_irrefl _)]

theorem c5_d01 : distance c5g1 0 1 = edn 2500 := by
  simp [distance, c5g1, add_node, c5g, initGraph]

theorem c5_step : step c5g1 0 1 35 =
    { add_node (remove_node c5g1 1) 1 40 30 with goalstate := some 1, goalFlag := true } := by
  obtain ⟨hcos, hsin⟩ := @atan2_cos_sin (40 : ℝ) 30 50 (by norm_num) (by norm_num)
  unfold step
  dsimp only
  rw [if_pos (by rw [c5_d01, natCast_lt_edn]; norm_num)]
  rw [if_pos (by
    simp only [c5g1, add_node, c5g, initGraph]
    norm_num [List.getD]
    rw [hcos, hsin, pyInt_eval (k := 28) (by norm_num), pyInt_eval (k := 21) (by norm_num)]
    decide)]
  simp only [c5g1, add_node, remove_node, c5g, initGraph]

theorem c5_bias_flag : (bias c5g (40, 30)).goalFlag = true := by
  unfold bias
  dsimp only
  rw [show c5g.x.length = 1 from rfl,
    show add_node c5g 1 (40, 30).1 (40, 30).2 = c5g1 from rfl,
    c5_nearest, c5_step]
  rw [(rewire_static _ _).2.2.2.1, connect_fst_goalFlag]

theorem c5_expand_flag : (expand c5g (40, 30)).goalFlag = false := by
  unfold expand
  dsimp only
  rw [show c5g.x.length = 1 from rfl,
    show add_node c5g 1 (40, 30).1 (40, 30).2 = c5g1 from rfl,
    isFree_of_hit (show (c5g1.obstacles.any fun r =>
      r.collidepoint ((c5g1.x.getD (c5g1.x.length - 1) 0 : ℤ) : ℚ)
        ((c5g1.y.getD (c5g1.x.length - 1) 0 : ℤ) : ℚ)) = true from rfl)]
  simp only [Bool.false_eq_true, if_false]
  rfl

/-- C5 counterexample: with the goal inside an obstacle, `bias(goal)` skips
the point-free check that `expand()` performs on the same sampled point: the
bias iteration steers, snaps onto the goal and arms `goalFlag` before the edge
check fails, while the expand iteration rejects the sample immediately — the
two results differ. -/
theorem c5_bias_ne_expand_cex :
    (bias c5g (40, 30)).goalFlag = true ∧
    (expand c5g (40, 30)).goalFlag = false ∧
    bias c5g (40, 30) ≠ expand c5g (40, 30) := by
  refine ⟨c5_bias_flag, c5_expand_flag, fun h => ?_⟩
  have h2 := c5_bias_flag
  rw [h, c5_expand_flag] at h2
  exact absurd h2 (by simp)

theorem isFree_true_fst {g : RRTGraph} (h : (isFree g).2 = true) : (isFree g).1 = g := by
  by_cases hc : (g.obstacles.any fun r =>
      r.collidepoint ((g.x.getD (g.x.length - 1) 0 : ℤ) : ℚ)
        ((g.y.getD (g.x.length - 1) 0 : ℤ) : ℚ)) = true
  · rw [isFree_of_hit hc] at h
    simp at h
  · rw [isFree_of_free (by simpa using hc)]

/-- C5 (amended): `bias(goal)` performs the same nearest/steer/connect/rewire
sequence as `expand()` with the sampled point forced to the goal, except that
it skips the point-free (`isFree`) check; whenever that check would pass —
in particular whenever the goal point lies in no obstacle — the two
iterations produce identical states. -/
theorem c5_bias_eq_expand (g : RRTGraph) (q : ℤ × ℤ)
    (hfree : (isFree (add_node g g.x.length q.1 q.2)).2 = true) :
    bias g q = expand g q := by
  unfold bias expand
  dsimp only
  rw [if_pos hfree, isFree_true_fst hfree]

/-- C5 amended-theorem witness: with no obstacles the point-free check passes
and `bias` equals `expand` on the concrete fresh state. -/
theorem c5_bias_eq_expand_witness :
    (isFree (add_node (initGraph (0, 0) (40, 30)) (initGraph (0, 0) (40, 30)).x.length
      (40, 30).1 (40, 30).2)).2 = true ∧
    bias (initGraph (0, 0) (40, 30)) (40, 30) = expand (initGraph (0, 0) (40, 30)) (40, 30) :=
  ⟨rfl, c5_bias_eq_expand (initGraph (0, 0) (40, 30)) (40, 30) rfl⟩

/-! ### C1: the cost bookkeeping equation -/

theorem step_of_not_far {g : RRTGraph} {a b dmax : ℕ}
    (h : ¬ ((dmax : ℝ≥0∞) < distance g a b)) : step g a b dmax = g := by
  unfold step
  dsimp only
  rw [if_neg h]

theorem natCast_le_edn {a : ℤ} {n : ℕ} (ha : 0 ≤ a) :
    (n : ℝ≥0∞) ≤ edn a ↔ (n : ℤ) ^ 2 ≤ a := by
  rw [show ((n : ℝ≥0∞)) = edn ((n : ℤ) ^ 2) from (edn_sq n).symm]
  constructor
  · intro h
    by_contra hc
    push_neg at hc
    exact absurd (lt_of_le_of_lt h ((edn_lt_edn ha).mpr hc)) (lt_irrefl _)
  · intro h
    by_contra hc
    push_neg at hc
    exact absurd ((edn_lt_edn (by positivity)).mp hc) (by omega)

theorem edn_not_lt_35 {a : ℤ} (h : 1225 ≤ a) : ¬ (edn a < 35) := by
  rw [show (35 : ℝ≥0∞) = ((35 : ℕ) : ℝ≥0∞) by norm_num, edn_lt_natCast (by omega)]
  omega

theorem edn_lt_35 {a : ℤ} (h0 : 0 ≤ a) (h : a < 1225) : edn a < 35 := by
  rw [show (35 : ℝ≥0∞) = ((35 : ℕ) : ℝ≥0∞) by norm_num, edn_lt_natCast h0]
  omega

theorem not_fires_far {s : RRTGraph} {n i : ℕ} (h : ¬ (distance s i n < 35)) :
    ¬ rewireFires s n i := fun hf => h hf.2.1

theorem not_fires_cost {s : RRTGraph} {n i : ℕ}
    (h : ¬ (s.cost.getD n ⊤ + distance s i n < s.cost.getD i ⊤)) :
    ¬ rewireFires s n i := fun hf => h hf.2.2.1

theorem not_fires_self {s : RRTGraph} {n : ℕ} : ¬ rewireFires s n n :=
  fun hf => hf.1 (Or.inl rfl)

/-- Initial state of the C1 run. -/
noncomputable def c1g0 : RRTGraph := initGraph (0, 0) (500, 500)

/-- State after iteration 1 (sample `(30, 0)`). -/
noncomputable def c1gA : RRTGraph :=
  { start := (0, 0), goal := (500, 500), goalFlag := false,
    x := [0, 30], y := [0, 0], parent := [0, 0], cost := [0, 30],
    obstacles := [], goalstate := none, path := [] }

noncomputable def c1b1 : RRTGraph := add_node c1g0 1 30 0

theorem c1_d1 : distance c1b1 0 1 = edn 900 := by
  simp [distance, c1b1, add_node, c1g0, initGraph]

theorem c1_e1 : expand c1g0 (30, 0) = c1gA := by
  unfold expand
  dsimp only
  rw [show c1g0.x.length = 1 from rfl,
    show add_node c1g0 1 (30, 0).1 (30, 0).2 = c1b1 from rfl,
    @isFree_of_free c1b1 rfl]
  dsimp only
  rw [show nearest c1b1 1 = 0 from by
      unfold nearest
      simp only [show List.range 1 = [0] from rfl, List.foldl_cons, List.foldl_nil]
      rw [if_neg (lt_irrefl _)]]
  rw [step_of_not_far (by rw [c1_d1, natCast_lt_edn]; norm_num)]
  rw [@connect_of_free c1b1 0 1 rfl]
  dsimp only
  rw [show add_edge c1b1 0 1 = c1gA from by
    unfold add_edge
    rw [c1_d1, edn_eval (show (900 : ℤ) = ((30 : ℕ) : ℤ) ^ 2 by norm_num)]
    simp [c1b1, c1gA, add_node, c1g0, initGraph, List.set]]
  unfold rewire
  rw [if_neg (show ¬ (c1gA.x.length ≤ 1) by simp [c1gA])]
  rw [show c1gA.x.length = 2 from rfl]
  simp only [show List.range 2 = [0, 1] from rfl, List.foldl_cons, List.foldl_nil]
  rw [show rewireStep c1gA 1 0 = c1gA from rewireStep_eq_of_not_fires (not_fires_cost (by
    rw [show c1gA.cost.getD 0 ⊤ = 0 from rfl]
    simp))]
  rw [show rewireStep c1gA 1 1 = c1gA from rewireStep_eq_of_not_fires not_fires_self]
  simp

/-- State after iteration 2 (sample `(30, 28)`). -/
noncomputable def c1gB : RRTGraph :=
  { start := (0, 0), goal := (500, 500), goalFlag := false,
    x := [0, 30, 30], y := [0, 0, 28], parent := [0, 0, 1], cost := [0, 30, 58],
    obstacles := [], goalstate := none, path := [] }

noncomputable def c1b2 : RRTGraph := add_node c1gA 2 30 28

theorem c1_d2a : distance c1b2 0 2 = edn 1684 := by
  simp [distance, c1b2, add_node, c1gA]

theorem c1_d2b : distance c1b2 1 2 = edn 784 := by
  simp [distance, c1b2, add_node, c1gA]

theorem c1_e2 : expand c1gA (30, 28) = c1gB := by
  unfold expand
  dsimp only
  rw [show c1gA.x.length = 2 from rfl,
    show add_node c1gA 2 (30, 28).1 (30, 28).2 = c1b2 from rfl,
    @isFree_of_free c1b2 rfl]
  dsimp only
  rw [show nearest c1b2 2 = 1 from by
      unfold nearest
      simp only [show List.range 2 = [0, 1] from rfl, List.foldl_cons, List.foldl_nil]
      rw [if_neg (lt_irrefl _)]
      rw [if_pos (by rw [c1_d2a, c1_d2b, edn_lt_edn (by norm_num)]; norm_num)]]
  rw [step_of_not_far (by rw [c1_d2b, natCast_lt_edn]; norm_num)]
  rw [@connect_of_free c1b2 1 2 rfl]
  dsimp only
  rw [show add_edge c1b2 1 2 = c1gB from by
    unfold add_edge
    rw [c1_d2b, edn_eval (show (784 : ℤ) = ((28 : ℕ) : ℤ) ^ 2 by norm_num)]
    simp [c1b2, c1gB, c1gA, add_node, List.set]
    norm_num]
  unfold rewire
  rw [if_neg (show ¬ (c1gB.x.length ≤ 2) by simp [c1gB])]
  rw [show c1gB.x.length = 3 from rfl]
  simp only [show List.range 3 = [0, 1, 2] from rfl, List.foldl_cons, List.foldl_nil]
  rw [show rewireStep c1gB 2 0 = c1gB from rewireStep_eq_of_not_fires (not_fires_far (by
    rw [show distance c1gB 0 2 = edn 1684 from by simp [distance, c1gB]]
    exact edn_not_lt_35 (by norm_num)))]
  rw [show rewireStep c1gB 2 1 = c1gB from rewireStep_eq_of_not_fires (not_fires_cost (by
    rw [show distance c1gB 1 2 = edn 784 from by simp [distance, c1gB],
      edn_eval (show (784 : ℤ) = ((28 : ℕ) : ℤ) ^ 2 by norm_num),
      show c1gB.cost.getD 2 ⊤ = 58 from rfl, show c1gB.cost.getD 1 ⊤ = 30 from rfl]
    norm_num))]
  rw [show rewireStep c1gB 2 2 = c1gB from rewireStep_eq_of_not_fires not_fires_self]
  simp

/-- State after iteration 3 (sample `(30, 56)`). -/
noncomputable def c1gC : RRTGraph :=
  { start := (0, 0), goal := (500, 500), goalFlag := false,
    x := [0, 30, 30, 30], y := [0, 0, 28, 56], parent := [0, 0, 1, 2],
    cost := [0, 30, 58, 86], obstacles := [], goalstate := none, path := [] }

noncomputable def c1b3 : RRTGraph := add_node c1gB 3 30 56

theorem c1_d3a : distance c1b3 0 3 = edn 4036 := by
  simp [distance, c1b3, add_node, c1gB]

theorem c1_d3b : distance c1b3 1 3 = edn 3136 := by
  simp [distance, c1b3, add_node, c1gB]

theorem c1_d3c : distance c1b3 2 3 = edn 784 := by
  simp [distance, c1b3, add_node, c1gB]

theorem c1_e3 : expand c1gB (30, 56) = c1gC := by
  unfold expand
  dsimp only
  rw [show c1gB.x.length = 3 from rfl,
    show add_node c1gB 3 (30, 56).1 (30, 56).2 = c1b3 from rfl,
    @isFree_of_free c1b3 rfl]
  dsimp only
  rw [show nearest c1b3 3 = 2 from by
      unfold nearest
      simp only [show List.range 3 = [0, 1, 2] from rfl, List.foldl_cons, List.foldl_nil]
      rw [if_neg (lt_irrefl _)]
      dsimp only
      rw [if_pos (show distance c1b3 1 3 < distance c1b3 0 3 from by
        rw [c1_d3a, c1_d3b, edn_lt_edn (by norm_num)]; norm_num)]
      dsimp only
      rw [if_pos (show distance c1b3 2 3 < distance c1b3 1 3 from by
        rw [c1_d3b, c1_d3c, edn_lt_edn (by norm_num)]; norm_num)]]
  rw [step_of_not_far (by rw [c1_d3c, natCast_lt_edn]; norm_num)]
  rw [@connect_of_free c1b3 2 3 rfl]
  dsimp only
  rw [show add_edge c1b3 2 3 = c1gC from by
    unfold add_edge
    rw [c1_d3c, edn_eval (show (784 : ℤ) = ((28 : ℕ) : ℤ) ^ 2 by norm_num)]
    simp [c1b3, c1gC, c1gB, add_node, List.set]
    norm_num]
  unfold rewire
  rw [if_neg (show ¬ (c1gC.x.length ≤ 3) by simp [c1gC])]
  rw [show c1gC.x.length = 4 from rfl]
  simp only [show List.range 4 = [0, 1, 2, 3] from rfl, List.foldl_cons, List.foldl_nil]
  rw [show rewireStep c1gC 3 0 = c1gC from rewireStep_eq_of_not_fires (not_fires_far (by
    rw [show distance c1gC 0 3 = edn 4036 from by simp [distance, c1gC]]
    exact edn_not_lt_35 (by norm_num)))]
  rw [show rewireStep c1gC 3 1 = c1gC from rewireStep_eq_of_not_fires (not_fires_far (by
    rw [show distance c1gC 1 3 = edn 3136 from by simp [distance, c1gC]]
    exact edn_not_lt_35 (by norm_num)))]
  rw [show rewireStep c1gC 3 2 = c1gC from rewireStep_eq_of_not_fires (not_fires_cost (by
    rw [show distance c1gC 2 3 = edn 784 from by simp [distance, c1gC],
      edn_eval (show (784 : ℤ) = ((28 : ℕ) : ℤ) ^ 2 by norm_num),
      show c1gC.cost.getD 3 ⊤ = 86 from rfl, show c1gC.cost.getD 2 ⊤ = 58 from rfl]
    norm_num))]
  rw [show rewireStep c1gC 3 3 = c1gC from rewireStep_eq_of_not_fires not_fires_self]
  simp

noncomputable def c1b4 : RRTGraph := add_node c1gC 4 0 12

theorem c1_d4a : distance c1b4 0 4 = edn 144 := by
  simp [distance, c1b4, add_node, c1gC]

theorem c1_d4b : distance c1b4 1 4 = edn 1044 := by
  simp [distance, c1b4, add_node, c1gC]

theorem c1_d4c : distance c1b4 2 4 = edn 1156 := by
  simp [distance, c1b4, add_node, c1gC]

theorem c1_d4d : distance c1b4 3 4 = edn 2836 := by
  simp [distance, c1b4, add_node, c1gC]

theorem c1_n4 : nearest c1b4 4 = 0 := by
  unfold nearest
  simp only [show List.range 4 = [0, 1, 2, 3] from rfl, List.foldl_cons, List.foldl_nil]
  rw [if_neg (lt_irrefl _)]
  dsimp only
  rw [if_neg (show ¬ (distance c1b4 1 4 < distance c1b4 0 4) from by
    rw [c1_d4a, c1_d4b, edn_lt_edn (by norm_num)]; norm_num)]
  rw [if_neg (show ¬ (distance c1b4 2 4 < distance c1b4 0 4) from by
    rw [c1_d4a, c1_d4c, edn_lt_edn (by norm_num)]; norm_num)]
  rw [if_neg (show ¬ (distance c1b4 3 4 < distance c1b4 0 4) from by
    rw [c1_d4a, c1_d4d, edn_lt_edn (by norm_num)]; norm_num)]

/-- State after iteration 4's `connect` (before rewiring). -/
noncomputable def c1gDpre : RRTGraph :=
  { start := (0, 0), goal := (500, 500), goalFlag := false,
    x := [0, 30, 30, 30, 0], y := [0, 0, 28, 56, 12], parent := [0, 0, 1, 2, 0],
    cost := [0, 30, 58, 86, 12], obstacles := [], goalstate := none, path := [] }

/-- Final state of the C1 run: rewiring node 4 re-parents node 2 onto node 4
(new cost `12 + 34 = 46`), but node 3 — a child of node 2 — keeps its stale
cost `86`. -/
noncomputable def c1gD : RRTGraph :=
  { start := (0, 0), goal := (500, 500), goalFlag := false,
    x := [0, 30, 30, 30, 0], y := [0, 0, 28, 56, 12], parent := [0, 0, 4, 2, 0],
    cost := [0, 30, 46, 86, 12], obstacles := [], goalstate := none, path := [] }

theorem c1_dpre24 : distance c1gDpre 2 4 = edn 1156 := by
  simp [distance, c1gDpre]

theorem c1_fires : rewireFires c1gDpre 4 2 := by
  refine ⟨by simp [c1gDpre], ?_, ?_, by rfl⟩
  · rw [c1_dpre24]
    exact edn_lt_35 (by norm_num) (by norm_num)
  · rw [c1_dpre24, edn_eval (show (1156 : ℤ) = ((34 : ℕ) : ℤ) ^ 2 by norm_num),
      show c1gDpre.cost.getD 4 ⊤ = 12 from rfl, show c1gDpre.cost.getD 2 ⊤ = 58 from rfl]
    norm_num

theorem c1_e4 : expand c1gC (0, 12) = c1gD := by
  unfold expand
  dsimp only
  rw [show c1gC.x.length = 4 from rfl,
    show add_node c1gC 4 (0, 12).1 (0, 12).2 = c1b4 from rfl,
    @isFree_of_free c1b4 rfl]
  dsimp only
  rw [c1_n4]
  rw [step_of_not_far (by rw [c1_d4a, natCast_lt_edn]; norm_num)]
  rw [@connect_of_free c1b4 0 4 rfl]
  dsimp only
  rw [show add_edge c1b4 0 4 = c1gDpre from by
    unfold add_edge
    rw [c1_d4a, edn_eval (show (144 : ℤ) = ((12 : ℕ) : ℤ) ^ 2 by norm_num)]
    simp [c1b4, c1gDpre, c1gC, add_node, List.set]]
  unfold rewire
  rw [if_neg (show ¬ (c1gDpre.x.length ≤ 4) by simp [c1gDpre])]
  rw [show c1gDpre.x.length = 5 from rfl]
  simp only [show List.range 5 = [0, 1, 2, 3, 4] from rfl, List.foldl_cons, List.foldl_nil]
  rw [show rewireStep c1gDpre 4 0 = c1gDpre from rewireStep_eq_of_not_fires (not_fires_cost (by
    rw [show c1gDpre.cost.getD 0 ⊤ = 0 from rfl]
    simp))]
  rw [show rewireStep c1gDpre 4 1 = c1gDpre from rewireStep_eq_of_not_fires (not_fires_cost (by
    rw [show distance c1gDpre 1 4 = edn 1044 from by simp [distance, c1gDpre],
      show c1gDpre.cost.getD 4 ⊤ = 12 from rfl, show c1gDpre.cost.getD 1 ⊤ = 30 from rfl]
    intro hlt
    have h18 : ((18 : ℕ) : ℝ≥0∞) ≤ edn 1044 := (natCast_le_edn (by norm_num)).mpr (by norm_num)
    have h30 : (30 : ℝ≥0∞) ≤ 12 + edn 1044 := by
      calc (30 : ℝ≥0∞) = 12 + ((18 : ℕ) : ℝ≥0∞) := by norm_num
      _ ≤ 12 + edn 1044 := add_le_add_left h18 12
    exact absurd hlt (not_lt.mpr h30)))]
  rw [show rewireStep c1gDpre 4 2 = c1gD from by
    rw [rewireStep_eq_of_fires c1_fires]
    rw [c1_dpre24, edn_eval (show (1156 : ℤ) = ((34 : ℕ) : ℤ) ^ 2 by norm_num)]
    simp [c1gDpre, c1gD, List.set]
    norm_num]
  rw [show rewireStep c1gD 4 3 = c1gD from rewireStep_eq_of_not_fires (not_fires_far (by
    rw [show distance c1gD 3 4 = edn 2836 from by simp [distance, c1gD]]
    exact edn_not_lt_35 (by norm_num)))]
  rw [show rewireStep c1gD 4 4 = c1gD from rewireStep_eq_of_not_fires not_fires_self]
  simp

/-- C1 counterexample: a four-iteration `expand` run (samples `(30,0)`,
`(30,28)`, `(30,56)`, `(0,12)` from start `(0,0)`, goal `(500,500)`, no
obstacles) ends in state `c1gD` where the fourth rewire re-parented node 2
onto node 4 and lowered `cost[2]` from 58 to 46, but node 3 — whose parent is
node 2 — keeps its stale cost 86 ≠ 46 + 28: the claimed invariant
`cost[i] = cost[parent[i]] + distance(parent[i], i)` fails after a completed
`expand()` iteration. -/
theorem c1_stale_cost_cex :
    expand (expand (expand (expand c1g0 (30, 0)) (30, 28)) (30, 56)) (0, 12) = c1gD ∧
    c1gD.parent.getD 3 0 = 2 ∧
    c1gD.cost.getD 3 ⊤ ≠
      c1gD.cost.getD (c1gD.parent.getD 3 0) ⊤ + distance c1gD (c1gD.parent.getD 3 0) 3 := by
  refine ⟨by rw [c1_e1, c1_e2, c1_e3, c1_e4], rfl, ?_⟩
  rw [show c1gD.parent.getD 3 0 = 2 from rfl,
    show distance c1gD 2 3 = edn 784 from by simp [distance, c1gD],
    edn_eval (show (784 : ℤ) = ((28 : ℕ) : ℤ) ^ 2 by norm_num),
    show c1gD.cost.getD 3 ⊤ = 86 from rfl, show c1gD.cost.getD 2 ⊤ = 46 from rfl]
  norm_num

/-- C1 (amended): the cost equation `cost[c] = cost[parent[c]] +
distance(parent[c], c)` is established by `add_edge` for the freshly connected
child, and re-established by `rewire` for every node whose parent the rewire
changes; it is not, however, propagated to descendants of a re-parented node
(see the counterexample), so it is not an invariant of completed iterations. -/
theorem c1_cost_equation (g : RRTGraph) (p c n i : ℕ) :
    (c < g.cost.length → p ≠ c →
      (add_edge g p c).cost.getD c ⊤ =
        (add_edge g p c).cost.getD p ⊤ + distance (add_edge g p c) p c) ∧
    ((rewire g n).parent.getD i 0 ≠ g.parent.getD i 0 →
      (rewire g n).cost.getD i ⊤ =
        (rewire g n).cost.getD ((rewire g n).parent.getD i 0) ⊤ +
          distance (rewire g n) ((rewire g n).parent.getD i 0) i) := by
  constructor
  · intro hc hpc
    unfold add_edge
    dsimp only
    rw [getD_set_same _ _ _ _ hc, getD_set_other _ _ _ hpc.symm]
    congr 1
  · intro hp
    by_cases hn : n < g.x.length
    · by_cases hi : i < g.x.length
      · obtain ⟨hc, hpar⟩ := rewire_getD g n i hn hi
        by_cases hcond : rewireFires g n i ∧ i < g.parent.length
        · rw [hpar, if_pos hcond]
          rw [hc, if_pos hcond.1]
          have hdist : distance (rewire g n) n i = distance g n i := by
            unfold distance
            rw [(rewire_static g n).1, (rewire_static g n).2.1]
          rw [hdist, (rewire_static g n).2.2.2.2.2.2.2, distance_comm g i n]
        · rw [hpar, if_neg hcond] at hp
          exact absurd rfl hp
      · exact absurd (rewire_getD_oob g n i (le_of_not_lt hi)).2 hp
    · rw [rewire_of_oob (le_of_not_lt hn)] at hp
      exact absurd rfl hp

/-- C1 amended-theorem witness at the concrete state `gW4`: the connected
child 2 satisfies the cost equation right after `add_edge 1 2`, and after
`rewire 1` re-parents node 2 (whose parent changes from 0 to 1) the equation
holds again for node 2. -/
theorem c1_cost_equation_witness :
    (add_edge gW4 1 2).cost.getD 2 ⊤ =
      (add_edge gW4 1 2).cost.getD 1 ⊤ + distance (add_edge gW4 1 2) 1 2 ∧
    (rewire gW4 1).cost.getD 2 ⊤ =
      (rewire gW4 1).cost.getD ((rewire gW4 1).parent.getD 2 0) ⊤ +
        distance (rewire gW4 1) ((rewire gW4 1).parent.getD 2 0) 2 := by
  refine ⟨(c1_cost_equation gW4 1 2 1 2).1 (by simp [gW4]) (by norm_num),
    (c1_cost_equation gW4 1 2 1 2).2 ?_⟩
  rw [gW4_parent_eval, show gW4.parent.getD 2 0 = 0 from rfl]
  norm_num
